import Mathlib

/-!
Verification of the `vasp_init` structure-file engine.

This file is a shallow embedding of the core of the repository
(`vasp_init/geometry.py`, `vasp_init/io.py`, `vasp_init/molecules.py`),
followed by theorems settling the frozen claims about it.

Embedding conventions:
* Python floats are embedded as exact rationals (`ℚ`): all arithmetic the
  code performs on them (+, -, *, /, floor, comparisons) is modelled
  exactly.  The two irrational operations in the source, `** 0.5` on a
  non-negative number and `** (1/3)`, are taken as function parameters
  (`rsqrt`, `cbrt`) so that every definition stays total and executable;
  theorems that depend on a property of the real square root state that
  property as a hypothesis (for example `rsqrt q = 0 ↔ q = 0`).
* Numeric literals such as `1e-14` denote their exact decimal value.
* Text lines are embedded as a `Line` record holding exactly the views the
  Python code extracts from a line of text: the raw string (used by
  `str.strip` / `startswith` checks), the result of `float(line.strip())`
  on the whole line, and the `line.split()` token list, where each token
  records its raw text and the results of `int(tok)` / `float(tok)`.
  The numeric lexer and formatter themselves are not re-implemented: a
  serializer-produced numeric token carries the exact value written, its
  `asInt` field is `none` because the `%.16f` format always contains a
  decimal point (so Python's `int()` rejects it), and species-label tokens
  carry `none` for both numeric views (normalized element labels always
  contain a letter, which both `int()` and `float()` reject).
* Python exceptions are modelled with `Except Err`; each distinct raise
  site keeps its own error constructor.  An out-of-bounds list subscript
  (Python `IndexError`) is `Err.indexOut`.
* The parser's integer line cursor `idx` is modelled by consuming a suffix
  of the line list; the explicit `idx >= len(lines)` check of the
  coordinate loop maps to the empty-suffix case.
-/

namespace VaspInit

/-- Componentwise 3-vector of rationals (a Python `[x, y, z]`). -/
abbrev Vec3 := ℚ × ℚ × ℚ

/-- 3x3 matrix as three row vectors (a Python list of 3 rows). -/
abbrev Mat3 := Vec3 × Vec3 × Vec3

/-- Per-atom selective-dynamics flags, one Boolean per Cartesian axis. -/
abbrev Flag3 := Bool × Bool × Bool

/-- Error kinds; each constructor corresponds to one raise site of the
Python source (`ValueError` messages, `IndexError`). -/
inductive Err where
  | tooShort
  | badNumber
  | malformedLattice
  | blankBeforeCounts
  | missingCounts
  | symbolCountMismatch
  | unknownCoordType
  | truncated
  | shortCoordLine
  | invalidVolume
  | singularMatrix
  | indexOut
  | frameOutOfRange
  | noMatchingAtoms
  | unexpectedAtomCount
  | degenerateSegment
  | invalidPlace
  deriving DecidableEq, Repr

/-! ## Geometry kernel (`vasp_init/geometry.py`) -/

/-- Python `str.strip()` (whitespace from both ends), implemented by
structural recursion on the character list so that it evaluates inside
the kernel. -/
def stripStr (s : String) : String :=
  String.mk (((s.data.dropWhile Char.isWhitespace).reverse.dropWhile
    Char.isWhitespace).reverse)

/-- Python `str.lower()`. -/
def lowerStr (s : String) : String := String.mk (s.data.map Char.toLower)

/-- Python `str.upper()`. -/
def upperStr (s : String) : String := String.mk (s.data.map Char.toUpper)

/-- Python `str.startswith(pre)`. -/
def startsWithStr (s pre : String) : Bool := pre.data.isPrefixOf s.data

/-- `_normalize_element` (geometry.py 6-12): keep only ASCII letters, empty
result becomes `"X"`, single letter upper-cased, otherwise Titlecase. -/
def normalizeElement (sym : String) : String :=
  let s := ((stripStr sym).data.filter Char.isAlpha)
  match s with
  | [] => "X"
  | [c] => String.mk [c.toUpper]
  | c :: rest => String.mk (c.toUpper :: rest.map Char.toLower)

/-- `det3` (geometry.py 15-17). -/
def det3 (m : Mat3) : ℚ :=
  let a := m.1.1; let b := m.1.2.1; let c := m.1.2.2
  let d := m.2.1.1; let e := m.2.1.2.1; let f := m.2.1.2.2
  let g := m.2.2.1; let h := m.2.2.2.1; let i := m.2.2.2.2
  a*(e*i - f*h) - b*(d*i - f*g) + c*(d*h - e*g)

/-- The singularity threshold `1e-14` of `mat_inv3`, as an exact rational. -/
def singEps : ℚ := 1 / 10 ^ 14

/-- `mat_inv3` (geometry.py 20-39): adjugate-over-determinant inverse,
raising (`Err.singularMatrix`) when `|det| < 1e-14`. -/
def matInv3 (m : Mat3) : Except Err Mat3 :=
  let a := m.1.1; let b := m.1.2.1; let c := m.1.2.2
  let d := m.2.1.1; let e := m.2.1.2.1; let f := m.2.1.2.2
  let g := m.2.2.1; let h := m.2.2.2.1; let i := m.2.2.2.2
  let A := e*i - f*h
  let B := -(d*i - f*g)
  let C := d*h - e*g
  let D := -(b*i - c*h)
  let E := a*i - c*g
  let F := -(a*h - b*g)
  let G := b*f - c*e
  let H := -(a*f - c*d)
  let I := a*e - b*d
  let det := a*A + b*B + c*C
  if abs det < singEps then .error .singularMatrix
  else .ok ((A/det, D/det, G/det), (B/det, E/det, H/det), (C/det, F/det, I/det))

/-- `mat_vec` (geometry.py 42-45): row-major matrix-vector product. -/
def matVec (m : Mat3) (v : Vec3) : Vec3 :=
  (m.1.1*v.1 + m.1.2.1*v.2.1 + m.1.2.2*v.2.2,
   m.2.1.1*v.1 + m.2.1.2.1*v.2.1 + m.2.1.2.2*v.2.2,
   m.2.2.1*v.1 + m.2.2.2.1*v.2.1 + m.2.2.2.2*v.2.2)

/-- `x - math.floor(x)` for one component. -/
def fracPart (x : ℚ) : ℚ := x - (Int.floor x : ℤ)

/-- `vec_mod1` (geometry.py 48-49): componentwise wrap into `[0,1)`. -/
def vecMod1 (v : Vec3) : Vec3 := (fracPart v.1, fracPart v.2.1, fracPart v.2.2)

/-- Componentwise vector sum. -/
def vadd (u v : Vec3) : Vec3 := (u.1 + v.1, u.2.1 + v.2.1, u.2.2 + v.2.2)

/-- Componentwise vector difference. -/
def vsub (u v : Vec3) : Vec3 := (u.1 - v.1, u.2.1 - v.2.1, u.2.2 - v.2.2)

/-- Scalar multiple of a vector. -/
def vsmul (q : ℚ) (v : Vec3) : Vec3 := (q * v.1, q * v.2.1, q * v.2.2)

/-- Scalar multiple of every matrix entry (the scale application of
`lattice_cart`). -/
def msmul (q : ℚ) (m : Mat3) : Mat3 := (vsmul q m.1, vsmul q m.2.1, vsmul q m.2.2)

/-- Sum of squared components (`vx*vx + vy*vy + vz*vz`). -/
def normSq (v : Vec3) : ℚ := v.1 * v.1 + v.2.1 * v.2.1 + v.2.2 * v.2.2

/-! ## Structure model (`vasp_init/io.py`, class `Poscar`) -/

/-- The one-character prefixes tested by the parser, and flag letters. -/
def strS : String := "s"

def strD : String := "d"

def strC : String := "c"

def strK : String := "k"

def strT : String := "T"

def strF : String := "F"

/-- The coordinate-type string `"Direct"` (io.py line 17). -/
def ctDirect : String := "Direct"

/-- The coordinate-type string `"Cartesian"`. -/
def ctCartesian : String := "Cartesian"

/-- The in-memory periodic-structure model (io.py 9-19).  `counts` are
Python ints (`ℤ`); `flags` is `None` (`none`) when selective dynamics is
absent, mirroring the Python `Optional` field. -/
structure Poscar where
  comment : String
  scale : ℚ
  lattice : Mat3
  symbols : List String
  counts : List ℤ
  has_selective : Bool
  coord_type : String
  frac_coords : List Vec3
  flags : Option (List Flag3)
  deriving DecidableEq, Repr

/-- `Poscar.lattice_cart` (io.py 21-39).  Positive scale multiplies every
component; otherwise `|scale|` is a target volume and the lattice is
rescaled by the cube root of `target/vol`, raising `Err.invalidVolume`
when the determinant-volume is non-positive.  The cube root is the
irrational parameter `cbrt`. -/
def latticeCart (cbrt : ℚ → ℚ) (p : Poscar) : Except Err Mat3 :=
  if 0 < p.scale then .ok (msmul p.scale p.lattice)
  else
    let targetVol := abs p.scale
    let vol := det3 p.lattice
    if vol ≤ 0 then .error .invalidVolume
    else .ok (msmul (cbrt (targetVol / vol)) p.lattice)

/-- `Poscar.total_atoms` (io.py 41-42). -/
def totalAtoms (p : Poscar) : ℤ := p.counts.sum

/-! ## Line/token model of a text file

A `Tok` records the views Python takes of one whitespace-separated token:
its raw text, `int(tok)` (`asInt`) and `float(tok)` (`asFloat`), each
`none` when the conversion raises `ValueError`.  A `Line` records the raw
line text, `float(line.strip())` for the whole line, and its token list. -/

structure Tok where
  raw : String
  asInt : Option ℤ
  asFloat : Option ℚ
  deriving DecidableEq, Repr

structure Line where
  raw : String
  lineFloat : Option ℚ
  toks : List Tok
  deriving DecidableEq, Repr

/-- A default token (never produced by a file; used only for `getD`). -/
def tokDefault : Tok := { raw := "", asInt := none, asFloat := none }

/-- `_is_int_tokens` (io.py 45-50): every token converts with `int`. -/
def isIntTokens (toks : List Tok) : Bool := toks.all (fun t => t.asInt.isSome)

/-- `float(tok)`, raising on failure. -/
def tokFloatQ (t : Tok) : Except Err ℚ :=
  match t.asFloat with
  | some q => .ok q
  | none => .error .badNumber

/-- `t.upper().startswith('T')` for a token (io.py 137). -/
def startsT (t : Tok) : Bool := startsWithStr (upperStr t.raw) strT

/-! ## POSCAR parser (`read_poscar`, io.py 53-145) -/

/-- One lattice row (io.py 67-72): needs at least 3 tokens, takes the
first three as floats. -/
def readLattRow (l : Line) : Except Err Vec3 :=
  if l.toks.length < 3 then .error .malformedLattice
  else do
    let x ← tokFloatQ (l.toks.getD 0 tokDefault)
    let y ← tokFloatQ (l.toks.getD 1 tokDefault)
    let z ← tokFloatQ (l.toks.getD 2 tokDefault)
    .ok (x, y, z)

/-- Symbols/counts section (io.py 75-97).  Returns
`(symbols, counts, remaining lines)`. -/
def readSymbolsCounts (l5 : Line) (rest : List Line) :
    Except Err (List String × List ℤ × List Line) :=
  let toks := l5.toks
  if toks = [] then .error .blankBeforeCounts
  else
    match toks.mapM Tok.asInt with
    | some ns => .ok ([], ns, rest)
    | none =>
      let syms := toks.map (fun t => normalizeElement t.raw)
      match rest with
      | [] => .error .indexOut
      | l6 :: rest2 =>
        match l6.toks.mapM Tok.asInt with
        | none => .error .missingCounts
        | some ns =>
          if syms.length ≠ 0 ∧ syms.length ≠ ns.length then
            if syms.length > ns.length then .ok (syms.take ns.length, ns, rest2)
            else .error .symbolCountMismatch
          else .ok (syms, ns, rest2)

/-- Coordinate-type line (io.py 106-113): first character of the stripped
line decides Direct (`d`) or Cartesian (`c`/`k`). -/
def parseCT (t : String) : Except Err String :=
  let low := lowerStr t
  if startsWithStr low strD then .ok ctDirect
  else if startsWithStr low strC ∨ startsWithStr low strK then .ok ctCartesian
  else .error .unknownCoordType

/-- Optional `Selective dynamics` line plus coordinate-type line
(io.py 99-113).  Returns `(has_selective, coord_type, remaining lines)`. -/
def readSelCT (rest : List Line) : Except Err (Bool × String × List Line) :=
  match rest with
  | [] => .error .indexOut
  | l :: rest2 =>
    let t := stripStr l.raw
    if startsWithStr (lowerStr t) strS then
      match rest2 with
      | [] => .error .indexOut
      | l2 :: rest3 => do
        let ct ← parseCT (stripStr l2.raw)
        .ok (true, ct, rest3)
    else do
      let ct ← parseCT t
      .ok (false, ct, rest2)

/-- The coordinate-reading loop (io.py 123-137), over the remaining lines.
Reads `n` lines; each needs `≥ 3` numeric tokens; Cartesian positions are
converted through `Linv`; when selective dynamics is on and the line has
`≥ 6` tokens, a flag triple is collected for that line (and only then). -/
def readCoords (ct : String) (sel : Bool) (Linv : Mat3) :
    Nat → List Line → Except Err (List Vec3 × List Flag3)
  | 0, _ => .ok ([], [])
  | _ + 1, [] => .error .truncated
  | n + 1, l :: ls => do
    let toks := l.toks
    if toks.length < 3 then .error .shortCoordLine
    else do
      let x ← tokFloatQ (toks.getD 0 tokDefault)
      let y ← tokFloatQ (toks.getD 1 tokDefault)
      let z ← tokFloatQ (toks.getD 2 tokDefault)
      let fc : Vec3 := if ct = ctDirect then (x, y, z) else matVec Linv (x, y, z)
      let fl : List Flag3 :=
        if sel ∧ 6 ≤ toks.length then
          [(startsT (toks.getD 3 tokDefault), startsT (toks.getD 4 tokDefault),
            startsT (toks.getD 5 tokDefault))]
        else []
      let (cs, fs) ← readCoords ct sel Linv n ls
      .ok (fc :: cs, fl ++ fs)

/-- The final flag fill (io.py 141): `flags if flags else [(T,T,T)]*nat`. -/
def fillFlags (fl : List Flag3) (nat : Nat) : List Flag3 :=
  if fl.isEmpty then List.replicate nat (true, true, true) else fl

/-- `read_poscar` (io.py 53-145) over the line model.  The file-length
guard, section order, and error sites mirror the source exactly. -/
def readPoscar (cbrt : ℚ → ℚ) (lines : List Line) : Except Err Poscar :=
  if lines.length < 8 then .error .tooShort
  else
    match lines with
    | l0 :: l1 :: l2 :: l3 :: l4 :: rest => do
      let comment := stripStr l0.raw
      let scale ← (match l1.lineFloat with
        | some q => Except.ok q
        | none => Except.error Err.badNumber)
      let r0 ← readLattRow l2
      let r1 ← readLattRow l3
      let r2 ← readLattRow l4
      let lat : Mat3 := (r0, r1, r2)
      match rest with
      | [] => .error .indexOut
      | l5 :: rest1 => do
        let (syms, counts, rest2) ← readSymbolsCounts l5 rest1
        let (sel, ct, rest3) ← readSelCT rest2
        let p0 : Poscar :=
          { comment := comment, scale := scale, lattice := lat,
            symbols := syms, counts := counts, has_selective := sel,
            coord_type := ct, frac_coords := [], flags := none }
        let nat := counts.sum.toNat
        let L ← latticeCart cbrt p0
        let Linv ← matInv3 L
        let (fcs, fls) ← readCoords ct sel Linv nat rest3
        .ok { p0 with frac_coords := fcs,
                      flags := if sel then some (fillFlags fls nat) else none }
    | _ => .error .indexOut

/-! ## POSCAR serializer (`write_poscar`, io.py 148-177)

The serializer produces the `Line` views of the text it writes.  A
numeric token written with `%.16f` always contains a decimal point, so its
`asInt` view is `none`; its `asFloat` view is the exact value written
(formatting is treated as exact, which is the precision-insensitive
reading the round-trip claim itself adopts).  Views the parser never
consumes for a given line kind (for example the token list of the comment
line) are left empty. -/

/-- A written floating-point token. -/
def fTok (q : ℚ) : Tok := { raw := toString q, asInt := none, asFloat := some q }

/-- A written integer token (`str(c)` for a count). -/
def iTok (n : ℤ) : Tok := { raw := toString n, asInt := some n, asFloat := some (n : ℚ) }

/-- A written species-label token.  Normalized element labels always
contain a letter, so `int()`/`float()` reject them. -/
def symTok (s : String) : Tok := { raw := s, asInt := none, asFloat := none }

/-- A written selective-dynamics token (`T` or `F`). -/
def boolTok (b : Bool) : Tok :=
  { raw := if b then strT else strF, asInt := none, asFloat := none }

/-- A written lattice row. -/
def rowLine (r : Vec3) : Line :=
  { raw := "", lineFloat := none, toks := [fTok r.1, fTok r.2.1, fTok r.2.2] }

/-- The flag tokens of one coordinate line: written only when selective
dynamics is on, flags exist and `i < len(flags)` (io.py 173-175). -/
def flagToks (sel : Bool) (flags : Option (List Flag3)) (i : Nat) : List Tok :=
  match flags with
  | some fl =>
    if sel ∧ i < fl.length then
      let f := fl.getD i (true, true, true)
      [boolTok f.1, boolTok f.2.1, boolTok f.2.2]
    else []
  | none => []

/-- The written coordinate lines, indexed from `i` (io.py 172-177). -/
def coordLines (sel : Bool) (flags : Option (List Flag3)) :
    Nat → List Vec3 → List Line
  | _, [] => []
  | i, c :: cs =>
    { raw := "", lineFloat := none,
      toks := [fTok c.1, fTok c.2.1, fTok c.2.2] ++ flagToks sel flags i } ::
      coordLines sel flags (i + 1) cs

/-- `write_poscar` (io.py 148-177).  Note the source writes the *scaled*
lattice (`lattice_cart`) while also writing the original `scale` line. -/
def writePoscar (cbrt : ℚ → ℚ) (p : Poscar) (octype : Option String) :
    Except Err (List Line) := do
  let outCT := match octype with
    | none => p.coord_type
    | some s => if s = "" then p.coord_type else s
  let L ← latticeCart cbrt p
  let coords := if startsWithStr (lowerStr outCT) strD then p.frac_coords
    else p.frac_coords.map (fun fc => matVec L fc)
  .ok ([{ raw := p.comment, lineFloat := none, toks := [] },
        { raw := "", lineFloat := some p.scale, toks := [] },
        rowLine L.1, rowLine L.2.1, rowLine L.2.2]
    ++ (if p.symbols = [] then []
        else [{ raw := "", lineFloat := none, toks := p.symbols.map symTok }])
    ++ [{ raw := "", lineFloat := none, toks := p.counts.map iTok }]
    ++ (if p.has_selective then
          [{ raw := "Selective dynamics", lineFloat := none, toks := [] }]
        else [])
    ++ [{ raw := outCT, lineFloat := none, toks := [] }]
    ++ coordLines p.has_selective p.flags 0 coords)

/-! ## PDB trajectory reader (`read_pdb_last_frame`, io.py 180-256)

A line of the trajectory file is classified by its first six columns and,
for atom records, by whether its coordinate fields parse; the element
label extraction (`_element_from_pdb_line`) and the column/fallback float
parsing are string-level work abstracted into the classification: an
`atomRec` carries the atom the Python loop would append, `atomSkip` is an
`ATOM`/`HETATM` record whose fallback tokenization yielded fewer than
three numeric tokens (the loop `continue`s), `other` is any other
record. -/

/-- One atom read from a PDB record (class `PdbAtom`, io.py 180-183):
the constructor normalizes the element label. -/
structure PdbAtom where
  element : String
  xyz : Vec3
  deriving DecidableEq, Repr

/-- `PdbAtom(element, x, y, z)` — normalizes on construction. -/
def mkPdbAtom (element : String) (x y z : ℚ) : PdbAtom :=
  { element := normalizeElement element, xyz := (x, y, z) }

inductive PdbLine where
  | model
  | endmdl
  | atomRec (a : PdbAtom)
  | atomSkip
  | other
  deriving DecidableEq, Repr

/-- The frame-accumulation loop of `read_pdb_last_frame` (io.py 210-244).
State: `(frames, current, in_model, have_model)`. -/
def pdbLoop : List PdbLine →
    List (List PdbAtom) → List PdbAtom → Bool → Bool →
    List (List PdbAtom) × List PdbAtom × Bool × Bool
  | [], frames, current, inModel, haveModel => (frames, current, inModel, haveModel)
  | .model :: ls, frames, current, inModel, _ =>
    if inModel then pdbLoop ls (frames ++ [current]) [] true true
    else pdbLoop ls frames current true true
  | .endmdl :: ls, frames, current, inModel, haveModel =>
    if inModel then pdbLoop ls (frames ++ [current]) [] false haveModel
    else pdbLoop ls frames current inModel haveModel
  | .atomRec a :: ls, frames, current, inModel, haveModel =>
    pdbLoop ls frames (current ++ [a]) inModel haveModel
  | .atomSkip :: ls, frames, current, inModel, haveModel =>
    pdbLoop ls frames current inModel haveModel
  | .other :: ls, frames, current, inModel, haveModel =>
    pdbLoop ls frames current inModel haveModel

/-- `read_pdb_last_frame` (io.py 204-256): run the loop, then select the
frame.  A negative `model_index` selects `len(frames) - 1`; an index
outside `[0, n)` raises (`Err.frameOutOfRange`). -/
def readPdbFrame (lines : List PdbLine) (modelIndex : ℤ) :
    Except Err (List PdbAtom) :=
  let st := pdbLoop lines [] [] false false
  let frames0 := st.1
  let current := st.2.1
  let inModel := st.2.2.1
  let haveModel := st.2.2.2
  if haveModel then
    let frames := if inModel then frames0 ++ [current] else frames0
    if frames = [] then .ok []
    else
      let idx : ℤ := if 0 ≤ modelIndex then modelIndex else frames.length - 1
      if idx < 0 ∨ frames.length ≤ idx then .error .frameOutOfRange
      else .ok (frames.getD idx.toNat [])
  else .ok current

/-! ## Ion-merge engine (`merge_ions_into_poscar`, io.py 259-359)

`sym_to_coords` is a `defaultdict(list)` whose keys appear in first-
insertion order; it is modelled as an association list `List (String ×
List Vec3)` built in that order.  `seen_order` is the first-seen
deduplication of the incoming symbol list, built exactly as in the
source. -/

/-- Append one `(sym, coord)` into the grouped association list
(`sym_to_coords[sym].append(fc)`). -/
def addPair (g : List (String × List Vec3)) (s : String) (v : Vec3) :
    List (String × List Vec3) :=
  match g with
  | [] => [(s, [v])]
  | (k, vs) :: rest =>
    if k = s then (k, vs ++ [v]) :: rest else (k, vs) :: addPair rest s v

/-- `sym_to_coords` built from the zipped symbol/coordinate lists
(io.py 289-291). -/
def groupPairs (l : List (String × Vec3)) : List (String × List Vec3) :=
  l.foldl (fun g sv => addPair g sv.1 sv.2) []

/-- Key lookup in the grouped association list (`sym in sym_to_coords`
and `sym_to_coords[sym]`). -/
def lookupGrp (g : List (String × List Vec3)) (s : String) :
    Option (List Vec3) :=
  match g with
  | [] => none
  | (k, vs) :: rest => if k = s then some vs else lookupGrp rest s

/-- `seen_order` (io.py 299-302): first-seen deduplication. -/
def firstSeen : List String → List String → List String
  | acc, [] => acc
  | acc, s :: ss => firstSeen (if s ∈ acc then acc else acc ++ [s]) ss

/-- The species/count bookkeeping loop (io.py 304-314): for each seen
symbol, increment the count of an existing symbol (Python `list.index` +
subscript assignment; an out-of-range count subscript is an
`IndexError`), append a new symbol+count pair, or (anonymous-species
structure) append a bare count. -/
def mergeCountsLoop (g : List (String × List Vec3)) :
    List String → List String → List ℤ → Except Err (List String × List ℤ)
  | [], syms, counts => .ok (syms, counts)
  | s :: ss, syms, counts =>
    let cnt : ℤ := ((lookupGrp g s).getD []).length
    if syms ≠ [] ∧ s ∈ syms then
      let i := syms.indexOf s
      if i < counts.length then
        mergeCountsLoop g ss syms (counts.set i (counts.getD i 0 + cnt))
      else .error .indexOut
    else if syms ≠ [] then
      mergeCountsLoop g ss (syms ++ [s]) (counts ++ [cnt])
    else
      mergeCountsLoop g ss syms (counts ++ [cnt])

/-- The appended-coordinate ordering (io.py 317-327): iterate the final
symbol list (or `seen_order` when there are no symbols), concatenating
each symbol's group when present.  For `seen_order` every lookup
succeeds, so the membership guard is harmless there. -/
def pickGroups : List String → List (String × List Vec3) → List Vec3
  | [], _ => []
  | s :: ss, g => (lookupGrp g s).getD [] ++ pickGroups ss g

/-- The selective-dynamics resolution block, textually identical at
io.py 329-347, molecules.py 170-189 and molecules.py 376-395: dynamics
are enabled when the input had them or either flag argument is supplied;
`frameworkFlags` replaces all framework flags; otherwise existing flags
are kept verbatim (or synthesized all-true); new atoms uniformly get the
new-atom flags (default all-true). -/
def resolveFlags (p : Poscar) (newFracLen : Nat)
    (newFlags frameworkFlags : Option Flag3) : Option (List Flag3) :=
  let enableSel := p.has_selective || newFlags.isSome || frameworkFlags.isSome
  if enableSel then
    let base :=
      match frameworkFlags with
      | some f => List.replicate p.frac_coords.length f
      | none =>
        match p.flags with
        | some fl =>
          if p.has_selective then fl
          else List.replicate p.frac_coords.length (true, true, true)
        | none => List.replicate p.frac_coords.length (true, true, true)
    let fl := newFlags.getD (true, true, true)
    some (base ++ List.replicate (newFracLen - base.length) fl)
  else none

/-- `merge_ions_into_poscar` (io.py 259-359). -/
def mergeIons (cbrt : ℚ → ℚ) (p : Poscar) (ions : List PdbAtom) (wrap : Bool)
    (ionFlags frameworkFlags : Option Flag3) : Except Err Poscar :=
  if ions = [] then .ok p
  else do
    let L ← latticeCart cbrt p
    let Linv ← matInv3 L
    let ionFrac := ions.map (fun a =>
      let f := matVec Linv a.xyz
      if wrap then vecMod1 f else f)
    let ionSyms := ions.map (fun a => normalizeElement a.element)
    let g := groupPairs (ionSyms.zip ionFrac)
    let seen := firstSeen [] ionSyms
    let (newSyms, newCounts) ← mergeCountsLoop g seen p.symbols p.counts
    let newFrac := p.frac_coords ++
      (if newSyms ≠ [] then pickGroups newSyms g else pickGroups seen g)
    let enableSel := p.has_selective || ionFlags.isSome || frameworkFlags.isSome
    .ok { comment := p.comment, scale := p.scale, lattice := p.lattice,
          symbols := newSyms, counts := newCounts,
          has_selective := enableSel, coord_type := p.coord_type,
          frac_coords := newFrac,
          flags := resolveFlags p newFrac.length ionFlags frameworkFlags }

/-! ## Rigid-molecule insertion engine (`vasp_init/molecules.py`)

The insertion functions are modelled over the already-parsed template
atom list `List DefAtom` (the output of `parse_def_ammonia` /
`parse_def_hydrogen`, whose file tokenization is string-level work); every
filter the functions re-apply to that list is mirrored.  The placement
block (molecules.py 84-119 and its verbatim copy 290-325) is factored as
`computeAnchor`; the square root `** 0.5` is the irrational parameter
`rsqrt`. -/

/-- One parsed template row `(name, (x, y, z))`. -/
abbrev DefAtom := String × Vec3

def pfxN : String := "N_"

def pfxH : String := "H_"

def symN : String := "N"

def symH : String := "H"

def strMidpoint : String := "midpoint"

def strFirst : String := "first"

def strSecond : String := "second"

def strPlus : String := "+"

def strPlusWord : String := "plus"

/-- The placement-anchor computation (molecules.py 84-119 = 290-325).
In `midpoint` mode with a non-zero along-axis offset, the unit direction
from `coord1` to `coord2` is used; a zero-length direction raises
`Err.degenerateSegment`.  The per-axis custom offset is added in every
mode; an unknown mode raises `Err.invalidPlace`. -/
def computeAnchor (rsqrt : ℚ → ℚ) (c1 c2 : Vec3) (place : String)
    (offm : ℚ) (offdir : String) (ox oy oz : ℚ) : Except Err Vec3 :=
  if place = strMidpoint then
    let m : Vec3 := ((c1.1 + c2.1) / 2, (c1.2.1 + c2.2.1) / 2, (c1.2.2 + c2.2.2) / 2)
    if 0 < abs offm then
      let v := vsub c2 c1
      let norm := rsqrt (normSq v)
      if norm = 0 then .error .degenerateSegment
      else
        let u := (v.1 / norm, v.2.1 / norm, v.2.2 / norm)
            let sign : ℚ := if offdir = strPlus ∨ lowerStr offdir = strPlusWord then 1 else -1
        .ok (vadd (vadd m (vsmul (sign * offm) u)) (ox, oy, oz))
    else .ok (vadd m (ox, oy, oz))
  else if place = strFirst then .ok (vadd c1 (ox, oy, oz))
  else if place = strSecond then .ok (vadd c2 (ox, oy, oz))
  else .error .invalidPlace

/-- One step of building `add_count` (a plain dict counting occurrences,
keys in insertion order). -/
def bumpCount (g : List (String × ℤ)) (s : String) : List (String × ℤ) :=
  match g with
  | [] => [(s, 1)]
  | (k, n) :: rest =>
    if k = s then (k, n + 1) :: rest else (k, n) :: bumpCount rest s

/-- `add_count` (molecules.py 143-145). -/
def countItems (syms : List String) : List (String × ℤ) :=
  syms.foldl bumpCount []

/-- The symbols/counts update loop of the insertion functions
(molecules.py 147-156), iterating `add_count.items()` in insertion
order.  Same failure mode as the merge loop on an out-of-range count
subscript. -/
def applyCounts :
    List (String × ℤ) → List String → List ℤ → Except Err (List String × List ℤ)
  | [], syms, counts => .ok (syms, counts)
  | (s, cnt) :: rest, syms, counts =>
    if syms ≠ [] ∧ s ∈ syms then
      let i := syms.indexOf s
      if i < counts.length then
        applyCounts rest syms (counts.set i (counts.getD i 0 + cnt))
      else .error .indexOut
    else if syms ≠ [] then
      applyCounts rest (syms ++ [s]) (counts ++ [cnt])
    else
      applyCounts rest syms (counts ++ [cnt])

/-- The appended-coordinate ordering of the insertion functions
(molecules.py 158-168): when symbols exist, for each final symbol append
every added atom of that species in input order; otherwise append in
input order. -/
def pickBySym : List String → List (String × Vec3) → List Vec3
  | [], _ => []
  | s :: ss, pairs =>
    (pairs.filter (fun p => p.1 = s)).map Prod.snd ++ pickBySym ss pairs

/-- The shared tail of both insertion functions (molecules.py 121-202 =
327-408): convert each translated template atom to fractional
coordinates, update symbols/counts, append coordinates species-major,
resolve flags and build the output structure. -/
def insertTail (cbrt : ℚ → ℚ) (p : Poscar) (rels : List DefAtom)
    (anchor : Vec3) (wrap : Bool) (flags frameworkFlags : Option Flag3) :
    Except Err Poscar := do
  let L ← latticeCart cbrt p
  let Linv ← matInv3 L
  let addPairs : List (String × Vec3) := rels.map (fun r =>
    let f := matVec Linv (vadd anchor r.2)
    (r.1, if wrap then vecMod1 f else f))
  let addSyms := addPairs.map Prod.fst
  let (newSyms, newCounts) ← applyCounts (countItems addSyms) p.symbols p.counts
  let newFrac := p.frac_coords ++
    (if newSyms ≠ [] then pickBySym newSyms addPairs else addPairs.map Prod.snd)
  let enableSel := p.has_selective || flags.isSome || frameworkFlags.isSome
  .ok { comment := p.comment, scale := p.scale, lattice := p.lattice,
        symbols := newSyms, counts := newCounts,
        has_selective := enableSel, coord_type := p.coord_type,
        frac_coords := newFrac,
        flags := resolveFlags p newFrac.length flags frameworkFlags }

/-- The rigid template offsets of the ammonia insertion
(molecules.py 78-82): re-filter to `N_`/`H_` names, take positions
relative to `nref`. -/
def ammoniaRels (atoms : List DefAtom) (nref : Vec3) : List DefAtom :=
  (atoms.filter (fun a =>
    startsWithStr a.1 pfxN ∨ startsWithStr a.1 pfxH)).map (fun a =>
      (if startsWithStr a.1 pfxN then symN else symH, vsub a.2 nref))

/-- The internal reference of the hydrogen insertion: the midpoint of
the two template atoms (molecules.py 278-282). -/
def h2Center (atoms : List DefAtom) : Vec3 :=
  let h1 := (atoms.getD 0 ("", (0, 0, 0))).2
  let h2 := (atoms.getD 1 ("", (0, 0, 0))).2
  ((h1.1 + h2.1) / 2, (h1.2.1 + h2.2.1) / 2, (h1.2.2 + h2.2.2) / 2)

/-- The rigid template offsets of the hydrogen insertion
(molecules.py 284-288). -/
def hydrogenRels (atoms : List DefAtom) (center : Vec3) : List DefAtom :=
  (atoms.filter (fun a => startsWithStr a.1 pfxH)).map (fun a =>
    (symH, vsub a.2 center))

/-- `add_ammonia_to_poscar` (molecules.py 47-202), over the parsed
template.  The first `N_`-prefixed atom is the internal reference; the
template is re-filtered to `N_`/`H_` names; a missing `N` raises
(`Err.noMatchingAtoms`). -/
def addAmmonia (rsqrt cbrt : ℚ → ℚ) (p : Poscar) (atoms : List DefAtom)
    (c1 c2 : Vec3) (place : String) (wrap : Bool)
    (flags frameworkFlags : Option Flag3)
    (offm : ℚ) (offdir : String) (ox oy oz : ℚ) : Except Err Poscar :=
  match (atoms.filter (fun a => startsWithStr a.1 pfxN)) with
  | [] => .error .noMatchingAtoms
  | nAtom :: _ => do
    let anchor ← computeAnchor rsqrt c1 c2 place offm offdir ox oy oz
    insertTail cbrt p (ammoniaRels atoms nAtom.2) anchor wrap flags frameworkFlags

/-- `add_hydrogen_to_poscar` (molecules.py 245-408), over the parsed
template.  Requires exactly two `H_` atoms; the internal reference is
their midpoint. -/
def addHydrogen (rsqrt cbrt : ℚ → ℚ) (p : Poscar) (atoms : List DefAtom)
    (c1 c2 : Vec3) (place : String) (wrap : Bool)
    (flags frameworkFlags : Option Flag3)
    (offm : ℚ) (offdir : String) (ox oy oz : ℚ) : Except Err Poscar :=
  if atoms = [] then .error .noMatchingAtoms
  else if atoms.length ≠ 2 then .error .unexpectedAtomCount
  else do
    let anchor ← computeAnchor rsqrt c1 c2 place offm offdir ox oy oz
    insertTail cbrt p (hydrogenRels atoms (h2Center atoms)) anchor wrap flags
      frameworkFlags

/-! ## Helper lemmas -/

theorem singEps_pos : 0 < singEps := by norm_num [singEps]

@[simp] theorem exBind_ok {α β : Type} {ε : Type} (a : α) (f : α → Except ε β) :
    (Except.ok a >>= f) = f a := rfl

@[simp] theorem exBind_err {α β : Type} {ε : Type} (e : ε) (f : α → Except ε β) :
    ((Except.error e : Except ε α) >>= f) = .error e := rfl

/-- If `mat_inv3` succeeds, the determinant is non-zero. -/
theorem det3_ne_zero_of_matInv3_ok {M Minv : Mat3} (h : matInv3 M = .ok Minv) :
    det3 M ≠ 0 := by
  obtain ⟨⟨a, b, c⟩, ⟨d, e, f⟩, ⟨g, h', i⟩⟩ := M
  simp only [matInv3] at h
  split at h
  · exact absurd h (by simp)
  · rename_i hcond
    intro h0
    apply hcond
    have : a * (e * i - f * h') + b * -(d * i - f * g) + c * (d * h' - e * g) =
        det3 ((a, b, c), (d, e, f), (g, h', i)) := by
      simp only [det3]; ring
    rw [this, h0]
    simpa using singEps_pos

/-- `mat_inv3` raises exactly below the `1e-14` threshold. -/
theorem matInv3_error_iff (M : Mat3) :
    matInv3 M = .error .singularMatrix ↔ abs (det3 M) < singEps := by
  obtain ⟨⟨a, b, c⟩, ⟨d, e, f⟩, ⟨g, h', i⟩⟩ := M
  have hdet : a * (e * i - f * h') + b * -(d * i - f * g) + c * (d * h' - e * g) =
      det3 ((a, b, c), (d, e, f), (g, h', i)) := by
    simp only [det3]; ring
  simp only [matInv3, hdet]
  split
  · simpa
  · simp [*]

/-- The inverse produced by `mat_inv3` is a left inverse under the
row-major product convention. -/
theorem matInv3_leftInverse {M Minv : Mat3} (h : matInv3 M = .ok Minv)
    (v : Vec3) : matVec Minv (matVec M v) = v := by
  have hd := det3_ne_zero_of_matInv3_ok h
  obtain ⟨⟨a, b, c⟩, ⟨d, e, f⟩, ⟨g, h', i⟩⟩ := M
  obtain ⟨x, y, z⟩ := v
  simp only [det3] at hd
  simp only [matInv3] at h
  split at h
  · exact absurd h (by simp)
  · rename_i hcond
    have hD : a * (e * i - f * h') + b * -(d * i - f * g) + c * (d * h' - e * g) ≠ 0 := by
      intro h0
      exact hd (by linear_combination h0)
    have hMinv : Minv = _ := (Except.ok.injEq _ _).mp h.symm
    subst hMinv
    simp only [matVec]
    refine Prod.ext ?_ (Prod.ext ?_ ?_) <;>
      · dsimp only
        rw [div_mul_eq_mul_div, div_mul_eq_mul_div, div_mul_eq_mul_div,
          div_add_div_same, div_add_div_same, div_eq_iff hD]
        ring

/-- The grouped association list and first-seen order computed by the
merge engine for an ion list. -/
def ionGroupsOf (Linv : Mat3) (ions : List PdbAtom) (wrap : Bool) :
    List (String × List Vec3) :=
  groupPairs ((ions.map (fun a => normalizeElement a.element)).zip
    (ions.map (fun a =>
      let f := matVec Linv a.xyz
      if wrap then vecMod1 f else f)))

/-- First-seen order of the (normalized) incoming species. -/
def ionSeenOf (ions : List PdbAtom) : List String :=
  firstSeen [] (ions.map (fun a => normalizeElement a.element))

/-- Inversion of a successful merge: the intermediate results and the
exact shape of the output. -/
theorem mergeIons_ok_elim {cbrt : ℚ → ℚ} {p : Poscar} {ions : List PdbAtom}
    {wrap : Bool} {ifl fw : Option Flag3} {out : Poscar}
    (h : mergeIons cbrt p ions wrap ifl fw = .ok out) (hne : ions ≠ []) :
    ∃ L Linv sc,
      latticeCart cbrt p = .ok L ∧ matInv3 L = .ok Linv ∧
      mergeCountsLoop (ionGroupsOf Linv ions wrap) (ionSeenOf ions)
        p.symbols p.counts = .ok sc ∧
      out = { comment := p.comment, scale := p.scale, lattice := p.lattice,
              symbols := sc.1, counts := sc.2,
              has_selective := p.has_selective || ifl.isSome || fw.isSome,
              coord_type := p.coord_type,
              frac_coords := p.frac_coords ++
                (if sc.1 ≠ [] then pickGroups sc.1 (ionGroupsOf Linv ions wrap)
                 else pickGroups (ionSeenOf ions) (ionGroupsOf Linv ions wrap)),
              flags := resolveFlags p
                (p.frac_coords ++
                  (if sc.1 ≠ [] then pickGroups sc.1 (ionGroupsOf Linv ions wrap)
                   else pickGroups (ionSeenOf ions) (ionGroupsOf Linv ions wrap))).length
                ifl fw } := by
  rw [mergeIons, if_neg hne] at h
  cases hL : latticeCart cbrt p with
  | error e => rw [hL] at h; simp only [exBind_err] at h; exact absurd h (by simp)
  | ok L =>
    rw [hL] at h
    simp only [exBind_ok] at h
    cases hInv : matInv3 L with
    | error e => rw [hInv] at h; simp only [exBind_err] at h; exact absurd h (by simp)
    | ok Linv =>
      rw [hInv] at h
      simp only [exBind_ok] at h
      cases hMC : mergeCountsLoop (ionGroupsOf Linv ions wrap) (ionSeenOf ions)
          p.symbols p.counts with
      | error e =>
        rw [ionGroupsOf, ionSeenOf] at hMC
        rw [hMC] at h
        simp only [exBind_err] at h
        exact absurd h (by simp)
      | ok sc =>
        obtain ⟨s1, s2⟩ := sc
        rw [ionGroupsOf, ionSeenOf] at hMC
        rw [hMC] at h
        simp only [exBind_ok] at h
        refine ⟨L, Linv, (s1, s2), rfl, hInv, ?_, ?_⟩
        · rw [ionGroupsOf, ionSeenOf]; exact hMC
        · simp only [Except.ok.injEq] at h
          rw [← h, ionGroupsOf, ionSeenOf]

/-- Inversion of a successful `insertTail`. -/
theorem insertTail_ok_elim {cbrt : ℚ → ℚ} {p : Poscar} {rels : List DefAtom}
    {anchor : Vec3} {wrap : Bool} {fl fw : Option Flag3} {out : Poscar}
    (h : insertTail cbrt p rels anchor wrap fl fw = .ok out) :
    ∃ L Linv sc,
      latticeCart cbrt p = .ok L ∧ matInv3 L = .ok Linv ∧
      (let addPairs : List (String × Vec3) := rels.map (fun r =>
        let f := matVec Linv (vadd anchor r.2)
        (r.1, if wrap then vecMod1 f else f))
      applyCounts (countItems (addPairs.map Prod.fst)) p.symbols p.counts = .ok sc ∧
      out = { comment := p.comment, scale := p.scale, lattice := p.lattice,
              symbols := sc.1, counts := sc.2,
              has_selective := p.has_selective || fl.isSome || fw.isSome,
              coord_type := p.coord_type,
              frac_coords := p.frac_coords ++
                (if sc.1 ≠ [] then pickBySym sc.1 addPairs else addPairs.map Prod.snd),
              flags := resolveFlags p
                (p.frac_coords ++
                  (if sc.1 ≠ [] then pickBySym sc.1 addPairs
                   else addPairs.map Prod.snd)).length fl fw }) := by
  rw [insertTail] at h
  cases hL : latticeCart cbrt p with
  | error e => rw [hL] at h; simp only [exBind_err] at h; exact absurd h (by simp)
  | ok L =>
    rw [hL] at h
    simp only [exBind_ok] at h
    cases hInv : matInv3 L with
    | error e => rw [hInv] at h; simp only [exBind_err] at h; exact absurd h (by simp)
    | ok Linv =>
      rw [hInv] at h
      simp only [exBind_ok] at h
      cases hAC : applyCounts (countItems ((rels.map (fun r =>
          let f := matVec Linv (vadd anchor r.2)
          (r.1, if wrap then vecMod1 f else f))).map Prod.fst)) p.symbols p.counts with
      | error e =>
        rw [hAC] at h
        simp only [exBind_err] at h
        exact absurd h (by simp)
      | ok sc =>
        obtain ⟨s1, s2⟩ := sc
        rw [hAC] at h
        simp only [exBind_ok] at h
        refine ⟨L, Linv, (s1, s2), rfl, hInv, hAC, ?_⟩
        simp only [Except.ok.injEq] at h
        exact h.symm

/-- Inversion of a successful ammonia insertion. -/
theorem addAmmonia_ok_elim {rsqrt cbrt : ℚ → ℚ} {p : Poscar}
    {atoms : List DefAtom} {c1 c2 : Vec3} {place : String} {wrap : Bool}
    {fl fw : Option Flag3} {offm : ℚ} {offdir : String} {ox oy oz : ℚ}
    {out : Poscar}
    (h : addAmmonia rsqrt cbrt p atoms c1 c2 place wrap fl fw offm offdir
      ox oy oz = .ok out) :
    ∃ nAtom rest anchor,
      atoms.filter (fun a => startsWithStr a.1 pfxN) = nAtom :: rest ∧
      computeAnchor rsqrt c1 c2 place offm offdir ox oy oz = .ok anchor ∧
      insertTail cbrt p (ammoniaRels atoms nAtom.2) anchor wrap fl fw = .ok out := by
  rw [addAmmonia] at h
  cases hf : atoms.filter (fun a => startsWithStr a.1 pfxN) with
  | nil => rw [hf] at h; exact absurd h (by simp)
  | cons nAtom rest =>
    rw [hf] at h
    cases hA : computeAnchor rsqrt c1 c2 place offm offdir ox oy oz with
    | error e => rw [hA] at h; simp only [exBind_err] at h; exact absurd h (by simp)
    | ok anchor =>
      rw [hA] at h
      simp only [exBind_ok] at h
      exact ⟨nAtom, rest, anchor, rfl, rfl, h⟩

/-- Inversion of a successful hydrogen insertion. -/
theorem addHydrogen_ok_elim {rsqrt cbrt : ℚ → ℚ} {p : Poscar}
    {atoms : List DefAtom} {c1 c2 : Vec3} {place : String} {wrap : Bool}
    {fl fw : Option Flag3} {offm : ℚ} {offdir : String} {ox oy oz : ℚ}
    {out : Poscar}
    (h : addHydrogen rsqrt cbrt p atoms c1 c2 place wrap fl fw offm offdir
      ox oy oz = .ok out) :
    atoms ≠ [] ∧ atoms.length = 2 ∧
    ∃ anchor,
      computeAnchor rsqrt c1 c2 place offm offdir ox oy oz = .ok anchor ∧
      insertTail cbrt p (hydrogenRels atoms (h2Center atoms)) anchor wrap fl fw
        = .ok out := by
  rw [addHydrogen] at h
  by_cases he : atoms = []
  · rw [if_pos he] at h; exact absurd h (by simp)
  · rw [if_neg he] at h
    by_cases hl : atoms.length = 2
    · rw [if_neg (by simpa using hl)] at h
      cases hA : computeAnchor rsqrt c1 c2 place offm offdir ox oy oz with
      | error e => rw [hA] at h; simp only [exBind_err] at h; exact absurd h (by simp)
      | ok anchor =>
        rw [hA] at h
        simp only [exBind_ok] at h
        exact ⟨he, hl, anchor, rfl, h⟩
    · rw [if_pos (by simpa using hl)] at h; exact absurd h (by simp)

/-! ## Claims -/

/-- C6: for every 3x3 matrix `M`, `mat_inv3` fails with `SingularMatrix`
exactly when `|det M| < 1e-14`, and whenever it succeeds the returned
inverse composed with `M` (row-major products) is the identity on every
vector. -/
theorem C6_matInv3_correct (M : Mat3) :
    (matInv3 M = .error .singularMatrix ↔ abs (det3 M) < singEps) ∧
    ∀ Minv v, matInv3 M = .ok Minv → matVec Minv (matVec M v) = v :=
  ⟨matInv3_error_iff M, fun _ v h => matInv3_leftInverse h v⟩

/-- Witness for C6 at the identity matrix and `v = (1, 2, 3)`. -/
theorem C6_matInv3_correct_witness :
    matVec ((1, 0, 0), (0, 1, 0), (0, 0, 1))
      (matVec ((1, 0, 0), (0, 1, 0), (0, 0, 1)) (1, 2, 3)) = (1, 2, 3) :=
  (C6_matInv3_correct ((1, 0, 0), (0, 1, 0), (0, 0, 1))).2
    ((1, 0, 0), (0, 1, 0), (0, 0, 1)) (1, 2, 3)
    (by norm_num [matInv3, singEps])

/-- C3: after a successful merge with a non-empty ion list, and after a
successful molecule insertion, selective dynamics is enabled in the
output exactly when the input had it or either flag argument was
supplied; in particular with no prior dynamics and both arguments
omitted it stays disabled. -/
theorem C3_flag_enable_resolution (cbrt rsqrt : ℚ → ℚ) (p : Poscar)
    (ions : List PdbAtom) (atoms : List DefAtom) (c1 c2 : Vec3)
    (place : String) (wrap : Bool) (ifl fw : Option Flag3) (offm : ℚ)
    (offdir : String) (ox oy oz : ℚ) :
    (∀ out, ions ≠ [] → mergeIons cbrt p ions wrap ifl fw = .ok out →
      (out.has_selective = true ↔
        (p.has_selective = true ∨ ifl.isSome = true ∨ fw.isSome = true))) ∧
    (∀ out, addAmmonia rsqrt cbrt p atoms c1 c2 place wrap ifl fw offm offdir
        ox oy oz = .ok out →
      (out.has_selective = true ↔
        (p.has_selective = true ∨ ifl.isSome = true ∨ fw.isSome = true))) ∧
    (∀ out, addHydrogen rsqrt cbrt p atoms c1 c2 place wrap ifl fw offm offdir
        ox oy oz = .ok out →
      (out.has_selective = true ↔
        (p.has_selective = true ∨ ifl.isSome = true ∨ fw.isSome = true))) := by
  refine ⟨?_, ?_, ?_⟩
  · intro out hne h
    obtain ⟨L, Linv, sc, _, _, _, hout⟩ := mergeIons_ok_elim h hne
    subst hout
    simp [Bool.or_eq_true, or_assoc]
  · intro out h
    obtain ⟨nAtom, rest, anchor, _, _, ht⟩ := addAmmonia_ok_elim h
    obtain ⟨L, Linv, sc, _, _, _, hout⟩ := insertTail_ok_elim ht
    subst hout
    simp [Bool.or_eq_true, or_assoc]
  · intro out h
    obtain ⟨_, _, anchor, _, ht⟩ := addHydrogen_ok_elim h
    obtain ⟨L, Linv, sc, _, _, _, hout⟩ := insertTail_ok_elim ht
    subst hout
    simp [Bool.or_eq_true, or_assoc]

/-! ### Concrete instances used by witnesses -/

/-- A small host structure: cubic cell, one Si atom, no selective
dynamics. -/
def pW : Poscar :=
  { comment := "w", scale := 1, lattice := ((1, 0, 0), (0, 1, 0), (0, 0, 1)),
    symbols := ["Si"], counts := [1], has_selective := false,
    coord_type := "Direct", frac_coords := [(0, 0, 0)], flags := none }

/-- One incoming sodium ion at the origin. -/
def ionW : PdbAtom := mkPdbAtom "Na" 0 0 0

/-- A parsed ammonia template. -/
def nh3W : List DefAtom :=
  [("N_1", (0, 0, 0)), ("H_1", (1, 0, 0)), ("H_2", (0, 1, 0)), ("H_3", (0, 0, 1))]

/-- A parsed hydrogen template. -/
def h2W : List DefAtom := [("H_1", (0, 0, 0)), ("H_2", (1, 0, 0))]

/-- Output of merging `ionW` into `pW` with ion flags supplied. -/
def mergeOutSel : Poscar :=
  { comment := "w", scale := 1, lattice := ((1, 0, 0), (0, 1, 0), (0, 0, 1)),
    symbols := ["Si", "Na"], counts := [1, 1], has_selective := true,
    coord_type := "Direct", frac_coords := [(0, 0, 0), (0, 0, 0)],
    flags := some [(true, true, true), (false, false, false)] }

/-- Output of merging `ionW` into `pW` with no flag arguments. -/
def mergeOutPlain : Poscar :=
  { comment := "w", scale := 1, lattice := ((1, 0, 0), (0, 1, 0), (0, 0, 1)),
    symbols := ["Si", "Na"], counts := [1, 1], has_selective := false,
    coord_type := "Direct", frac_coords := [(0, 0, 0), (0, 0, 0)],
    flags := none }

/-- Output of inserting `nh3W` into `pW` with molecule flags supplied. -/
def nh3OutSel : Poscar :=
  { comment := "w", scale := 1, lattice := ((1, 0, 0), (0, 1, 0), (0, 0, 1)),
    symbols := ["Si", "N", "H"], counts := [1, 1, 3], has_selective := true,
    coord_type := "Direct",
    frac_coords := [(0, 0, 0), (0, 0, 0), (1, 0, 0), (0, 1, 0), (0, 0, 1)],
    flags := some [(true, true, true), (false, false, false),
      (false, false, false), (false, false, false), (false, false, false)] }

/-- Output of inserting `nh3W` into `pW` with no flag arguments. -/
def nh3OutPlain : Poscar :=
  { comment := "w", scale := 1, lattice := ((1, 0, 0), (0, 1, 0), (0, 0, 1)),
    symbols := ["Si", "N", "H"], counts := [1, 1, 3], has_selective := false,
    coord_type := "Direct",
    frac_coords := [(0, 0, 0), (0, 0, 0), (1, 0, 0), (0, 1, 0), (0, 0, 1)],
    flags := none }

/-- Output of inserting `h2W` into `pW` with molecule flags supplied. -/
def h2OutSel : Poscar :=
  { comment := "w", scale := 1, lattice := ((1, 0, 0), (0, 1, 0), (0, 0, 1)),
    symbols := ["Si", "H"], counts := [1, 2], has_selective := true,
    coord_type := "Direct",
    frac_coords := [(0, 0, 0), (-(1 : ℚ)/2, 0, 0), ((1 : ℚ)/2, 0, 0)],
    flags := some [(true, true, true), (false, false, false), (false, false, false)] }

/-- Output of inserting `h2W` into `pW` with no flag arguments. -/
def h2OutPlain : Poscar :=
  { comment := "w", scale := 1, lattice := ((1, 0, 0), (0, 1, 0), (0, 0, 1)),
    symbols := ["Si", "H"], counts := [1, 2], has_selective := false,
    coord_type := "Direct",
    frac_coords := [(0, 0, 0), (-(1 : ℚ)/2, 0, 0), ((1 : ℚ)/2, 0, 0)],
    flags := none }

theorem mergeSelEval :
    mergeIons (fun q => q) pW [ionW] false (some (false, false, false)) none =
      .ok mergeOutSel := by
  norm_num +decide [mergeIons, latticeCart, msmul, vsmul, matInv3, singEps,
    matVec, mkPdbAtom, normalizeElement, stripStr, upperStr, lowerStr,
    startsWithStr, groupPairs, addPair, firstSeen, mergeCountsLoop, lookupGrp,
    pickGroups, resolveFlags, List.replicate, pW, ionW, mergeOutSel]

theorem mergePlainEval :
    mergeIons (fun q => q) pW [ionW] false none none = .ok mergeOutPlain := by
  norm_num +decide [mergeIons, latticeCart, msmul, vsmul, matInv3, singEps,
    matVec, mkPdbAtom, normalizeElement, stripStr, upperStr, lowerStr,
    startsWithStr, groupPairs, addPair, firstSeen, mergeCountsLoop, lookupGrp,
    pickGroups, resolveFlags, List.replicate, pW, ionW, mergeOutPlain]

theorem nh3SelEval :
    addAmmonia (fun q => q) (fun q => q) pW nh3W (0, 0, 0) (1, 1, 1) strFirst
      false (some (false, false, false)) none 0 strPlus 0 0 0 = .ok nh3OutSel := by
  norm_num +decide [addAmmonia, computeAnchor, strFirst, strMidpoint, strPlus,
    ammoniaRels, pfxN, pfxH, symN, symH, insertTail, latticeCart, msmul, vsmul,
    matInv3, singEps, matVec, vadd, vsub, countItems, bumpCount, applyCounts,
    pickBySym, resolveFlags, List.replicate, pW, nh3W, nh3OutSel, startsWithStr]

theorem nh3PlainEval :
    addAmmonia (fun q => q) (fun q => q) pW nh3W (0, 0, 0) (1, 1, 1) strFirst
      false none none 0 strPlus 0 0 0 = .ok nh3OutPlain := by
  norm_num +decide [addAmmonia, computeAnchor, strFirst, strMidpoint, strPlus,
    ammoniaRels, pfxN, pfxH, symN, symH, insertTail, latticeCart, msmul, vsmul,
    matInv3, singEps, matVec, vadd, vsub, countItems, bumpCount, applyCounts,
    pickBySym, resolveFlags, List.replicate, pW, nh3W, nh3OutPlain, startsWithStr]

theorem h2SelEval :
    addHydrogen (fun q => q) (fun q => q) pW h2W (0, 0, 0) (1, 1, 1) strFirst
      false (some (false, false, false)) none 0 strPlus 0 0 0 = .ok h2OutSel := by
  norm_num +decide [addHydrogen, computeAnchor, strFirst, strMidpoint, strPlus,
    hydrogenRels, h2Center, pfxH, symH, insertTail, latticeCart, msmul, vsmul,
    matInv3, singEps, matVec, vadd, vsub, countItems, bumpCount, applyCounts,
    pickBySym, resolveFlags, List.replicate, pW, h2W, h2OutSel, startsWithStr]

theorem h2PlainEval :
    addHydrogen (fun q => q) (fun q => q) pW h2W (0, 0, 0) (1, 1, 1) strFirst
      false none none 0 strPlus 0 0 0 = .ok h2OutPlain := by
  norm_num +decide [addHydrogen, computeAnchor, strFirst, strMidpoint, strPlus,
    hydrogenRels, h2Center, pfxH, symH, insertTail, latticeCart, msmul, vsmul,
    matInv3, singEps, matVec, vadd, vsub, countItems, bumpCount, applyCounts,
    pickBySym, resolveFlags, List.replicate, pW, h2W, h2OutPlain, startsWithStr]

/-- Witness for C3: merging with ion flags supplied (framework flags
omitted, no prior dynamics) enables selective dynamics, for all three
operations. -/
theorem C3_flag_enable_resolution_witness :
    (mergeOutSel.has_selective = true ↔
      (pW.has_selective = true ∨
        (some (false, false, false) : Option Flag3).isSome = true ∨
        (none : Option Flag3).isSome = true)) ∧
    (nh3OutSel.has_selective = true ↔
      (pW.has_selective = true ∨
        (some (false, false, false) : Option Flag3).isSome = true ∨
        (none : Option Flag3).isSome = true)) ∧
    (h2OutSel.has_selective = true ↔
      (pW.has_selective = true ∨
        (some (false, false, false) : Option Flag3).isSome = true ∨
        (none : Option Flag3).isSome = true)) :=
  ⟨(C3_flag_enable_resolution (fun q => q) (fun q => q) pW [ionW] nh3W
      (0, 0, 0) (1, 1, 1) strFirst false (some (false, false, false)) none 0
      strPlus 0 0 0).1 mergeOutSel (by simp) mergeSelEval,
   (C3_flag_enable_resolution (fun q => q) (fun q => q) pW [ionW] nh3W
      (0, 0, 0) (1, 1, 1) strFirst false (some (false, false, false)) none 0
      strPlus 0 0 0).2.1 nh3OutSel nh3SelEval,
   (C3_flag_enable_resolution (fun q => q) (fun q => q) pW [ionW] h2W
      (0, 0, 0) (1, 1, 1) strFirst false (some (false, false, false)) none 0
      strPlus 0 0 0).2.2 h2OutSel h2SelEval⟩

/-- C10 (implicit frame effect): a successful merge or molecule insertion
preserves `comment`, `scale`, `lattice` and `coord_type`, and its
`frac_coords` begin with the input's `frac_coords` unchanged, new atoms
being appended only after them. -/
theorem C10_frame_preservation (cbrt rsqrt : ℚ → ℚ) (p : Poscar)
    (ions : List PdbAtom) (atoms : List DefAtom) (c1 c2 : Vec3)
    (place : String) (wrap : Bool) (ifl fw : Option Flag3) (offm : ℚ)
    (offdir : String) (ox oy oz : ℚ) :
    (∀ out, ions ≠ [] → mergeIons cbrt p ions wrap ifl fw = .ok out →
      out.comment = p.comment ∧ out.scale = p.scale ∧
      out.lattice = p.lattice ∧ out.coord_type = p.coord_type ∧
      out.frac_coords.take p.frac_coords.length = p.frac_coords) ∧
    (∀ out, addAmmonia rsqrt cbrt p atoms c1 c2 place wrap ifl fw offm offdir
        ox oy oz = .ok out →
      out.comment = p.comment ∧ out.scale = p.scale ∧
      out.lattice = p.lattice ∧ out.coord_type = p.coord_type ∧
      out.frac_coords.take p.frac_coords.length = p.frac_coords) ∧
    (∀ out, addHydrogen rsqrt cbrt p atoms c1 c2 place wrap ifl fw offm offdir
        ox oy oz = .ok out →
      out.comment = p.comment ∧ out.scale = p.scale ∧
      out.lattice = p.lattice ∧ out.coord_type = p.coord_type ∧
      out.frac_coords.take p.frac_coords.length = p.frac_coords) := by
  refine ⟨?_, ?_, ?_⟩
  · intro out hne h
    obtain ⟨L, Linv, sc, _, _, _, hout⟩ := mergeIons_ok_elim h hne
    subst hout
    exact ⟨rfl, rfl, rfl, rfl, List.take_left _ _⟩
  · intro out h
    obtain ⟨nAtom, rest, anchor, _, _, ht⟩ := addAmmonia_ok_elim h
    obtain ⟨L, Linv, sc, _, _, _, hout⟩ := insertTail_ok_elim ht
    subst hout
    exact ⟨rfl, rfl, rfl, rfl, List.take_left _ _⟩
  · intro out h
    obtain ⟨_, _, anchor, _, ht⟩ := addHydrogen_ok_elim h
    obtain ⟨L, Linv, sc, _, _, _, hout⟩ := insertTail_ok_elim ht
    subst hout
    exact ⟨rfl, rfl, rfl, rfl, List.take_left _ _⟩

/-- Witness for C10 on the concrete merge and insertions into `pW`. -/
theorem C10_frame_preservation_witness :
    (mergeOutPlain.comment = pW.comment ∧ mergeOutPlain.scale = pW.scale ∧
      mergeOutPlain.lattice = pW.lattice ∧
      mergeOutPlain.coord_type = pW.coord_type ∧
      mergeOutPlain.frac_coords.take pW.frac_coords.length = pW.frac_coords) ∧
    (nh3OutPlain.comment = pW.comment ∧ nh3OutPlain.scale = pW.scale ∧
      nh3OutPlain.lattice = pW.lattice ∧
      nh3OutPlain.coord_type = pW.coord_type ∧
      nh3OutPlain.frac_coords.take pW.frac_coords.length = pW.frac_coords) ∧
    (h2OutPlain.comment = pW.comment ∧ h2OutPlain.scale = pW.scale ∧
      h2OutPlain.lattice = pW.lattice ∧
      h2OutPlain.coord_type = pW.coord_type ∧
      h2OutPlain.frac_coords.take pW.frac_coords.length = pW.frac_coords) :=
  ⟨(C10_frame_preservation (fun q => q) (fun q => q) pW [ionW] nh3W
      (0, 0, 0) (1, 1, 1) strFirst false none none 0 strPlus 0 0 0).1
      mergeOutPlain (by simp) mergePlainEval,
   (C10_frame_preservation (fun q => q) (fun q => q) pW [ionW] nh3W
      (0, 0, 0) (1, 1, 1) strFirst false none none 0 strPlus 0 0 0).2.1
      nh3OutPlain nh3PlainEval,
   (C10_frame_preservation (fun q => q) (fun q => q) pW [ionW] h2W
      (0, 0, 0) (1, 1, 1) strFirst false none none 0 strPlus 0 0 0).2.2
      h2OutPlain h2PlainEval⟩

/-! ### C4: framework-flag override -/

theorem resolveFlags_fw_some (p : Poscar) (n : Nat) (ifl : Option Flag3)
    (f : Flag3) :
    resolveFlags p n ifl (some f) =
      some (List.replicate p.frac_coords.length f ++
        List.replicate (n - p.frac_coords.length) (ifl.getD (true, true, true))) := by
  simp [resolveFlags]

theorem resolveFlags_keep (p : Poscar) (n : Nat) (ifl : Option Flag3)
    (fl0 : List Flag3) (hsel : p.has_selective = true)
    (hfl : p.flags = some fl0) :
    resolveFlags p n ifl none =
      some (fl0 ++ List.replicate (n - fl0.length) (ifl.getD (true, true, true))) := by
  simp [resolveFlags, hsel, hfl]

theorem resolveFlags_synth (p : Poscar) (n : Nat) (ifl : Option Flag3)
    (hfl : p.flags = none)
    (hen : p.has_selective = true ∨ ifl.isSome = true) :
    resolveFlags p n ifl none =
      some (List.replicate p.frac_coords.length (true, true, true) ++
        List.replicate (n - p.frac_coords.length) (ifl.getD (true, true, true))) := by
  rcases hen with hen | hen <;> simp [resolveFlags, hfl, hen]

theorem take_append_replicate {α : Type} (l r : List α) :
    (l ++ r).take l.length = l := List.take_left l r

theorem drop_append_replicate {α : Type} (l r : List α) :
    (l ++ r).drop l.length = r := List.drop_left l r

/-- C4: after a successful merge of a non-empty ion list,
(1) a supplied `frameworkFlags` replaces the flags of every pre-existing
atom, regardless of their prior values; (2) with `frameworkFlags` absent
and the input selective, the pre-existing flags are kept verbatim;
(3) with `frameworkFlags` absent, no prior flags and dynamics enabled,
the framework atoms get all-true flags; and in every case each appended
atom's flags equal `ionFlags` when supplied, else all-true, uniformly. -/
theorem C4_framework_flag_override (cbrt : ℚ → ℚ) (p : Poscar)
    (ions : List PdbAtom) (wrap : Bool) (ifl fw : Option Flag3) (out : Poscar)
    (hne : ions ≠ []) (h : mergeIons cbrt p ions wrap ifl fw = .ok out) :
    (∀ f, fw = some f →
      ∃ nfl, out.flags = some nfl ∧
        nfl.take p.frac_coords.length =
          List.replicate p.frac_coords.length f ∧
        nfl.drop p.frac_coords.length =
          List.replicate (out.frac_coords.length - p.frac_coords.length)
            (ifl.getD (true, true, true))) ∧
    (∀ fl0, fw = none → p.has_selective = true → p.flags = some fl0 →
      fl0.length = p.frac_coords.length →
      ∃ nfl, out.flags = some nfl ∧
        nfl.take p.frac_coords.length = fl0 ∧
        nfl.drop p.frac_coords.length =
          List.replicate (out.frac_coords.length - p.frac_coords.length)
            (ifl.getD (true, true, true))) ∧
    (fw = none → p.flags = none → (p.has_selective = true ∨ ifl.isSome = true) →
      ∃ nfl, out.flags = some nfl ∧
        nfl.take p.frac_coords.length =
          List.replicate p.frac_coords.length (true, true, true) ∧
        nfl.drop p.frac_coords.length =
          List.replicate (out.frac_coords.length - p.frac_coords.length)
            (ifl.getD (true, true, true))) := by
  obtain ⟨L, Linv, sc, _, _, _, hout⟩ := mergeIons_ok_elim h hne
  set app := (if sc.1 ≠ [] then pickGroups sc.1 (ionGroupsOf Linv ions wrap)
    else pickGroups (ionSeenOf ions) (ionGroupsOf Linv ions wrap)) with happ
  have hlen : (p.frac_coords ++ app).length - p.frac_coords.length = app.length := by
    simp
  refine ⟨?_, ?_, ?_⟩
  · intro f hfw
    subst hfw hout
    rw [resolveFlags_fw_some]
    refine ⟨_, rfl, ?_, ?_⟩
    · have := take_append_replicate
        (List.replicate p.frac_coords.length f)
        (List.replicate ((p.frac_coords ++ app).length - p.frac_coords.length)
          (ifl.getD (true, true, true)))
      simpa using this
    · have := drop_append_replicate
        (List.replicate p.frac_coords.length f)
        (List.replicate ((p.frac_coords ++ app).length - p.frac_coords.length)
          (ifl.getD (true, true, true)))
      simpa using this
  · intro fl0 hfw hsel hfl hl
    subst hfw hout
    rw [resolveFlags_keep p _ ifl fl0 hsel hfl]
    refine ⟨_, rfl, ?_, ?_⟩
    · have := take_append_replicate fl0
        (List.replicate ((p.frac_coords ++ app).length - fl0.length)
          (ifl.getD (true, true, true)))
      rw [hl] at this
      simpa [hl] using this
    · have := drop_append_replicate fl0
        (List.replicate ((p.frac_coords ++ app).length - fl0.length)
          (ifl.getD (true, true, true)))
      rw [hl] at this
      simpa [hl] using this
  · intro hfw hfl hen
    subst hfw hout
    rw [resolveFlags_synth p _ ifl hfl hen]
    refine ⟨_, rfl, ?_, ?_⟩
    · have := take_append_replicate
        (List.replicate p.frac_coords.length ((true, true, true) : Flag3))
        (List.replicate ((p.frac_coords ++ app).length - p.frac_coords.length)
          (ifl.getD (true, true, true)))
      simpa using this
    · have := drop_append_replicate
        (List.replicate p.frac_coords.length ((true, true, true) : Flag3))
        (List.replicate ((p.frac_coords ++ app).length - p.frac_coords.length)
          (ifl.getD (true, true, true)))
      simpa using this

/-- `pW` with selective dynamics already enabled and one all-false flag
row. -/
def pWSel : Poscar :=
  { comment := "w", scale := 1, lattice := ((1, 0, 0), (0, 1, 0), (0, 0, 1)),
    symbols := ["Si"], counts := [1], has_selective := true,
    coord_type := "Direct", frac_coords := [(0, 0, 0)],
    flags := some [(false, false, false)] }

/-- Output of merging `ionW` into `pW` with both flag arguments. -/
def mergeOutFw : Poscar :=
  { comment := "w", scale := 1, lattice := ((1, 0, 0), (0, 1, 0), (0, 0, 1)),
    symbols := ["Si", "Na"], counts := [1, 1], has_selective := true,
    coord_type := "Direct", frac_coords := [(0, 0, 0), (0, 0, 0)],
    flags := some [(false, true, false), (true, false, true)] }

/-- Output of merging `ionW` into `pWSel` with only ion flags. -/
def mergeOutKeep : Poscar :=
  { comment := "w", scale := 1, lattice := ((1, 0, 0), (0, 1, 0), (0, 0, 1)),
    symbols := ["Si", "Na"], counts := [1, 1], has_selective := true,
    coord_type := "Direct", frac_coords := [(0, 0, 0), (0, 0, 0)],
    flags := some [(false, false, false), (true, false, true)] }

theorem mergeFwEval :
    mergeIons (fun q => q) pW [ionW] false (some (true, false, true))
      (some (false, true, false)) = .ok mergeOutFw := by
  norm_num +decide [mergeIons, latticeCart, msmul, vsmul, matInv3, singEps,
    matVec, mkPdbAtom, normalizeElement, stripStr, upperStr, lowerStr,
    startsWithStr, groupPairs, addPair, firstSeen, mergeCountsLoop, lookupGrp,
    pickGroups, resolveFlags, List.replicate, pW, ionW, mergeOutFw]

theorem mergeKeepEval :
    mergeIons (fun q => q) pWSel [ionW] false (some (true, false, true)) none =
      .ok mergeOutKeep := by
  norm_num +decide [mergeIons, latticeCart, msmul, vsmul, matInv3, singEps,
    matVec, mkPdbAtom, normalizeElement, stripStr, upperStr, lowerStr,
    startsWithStr, groupPairs, addPair, firstSeen, mergeCountsLoop, lookupGrp,
    pickGroups, resolveFlags, List.replicate, pWSel, ionW, mergeOutKeep]

/-- Witness for C4: the three flag-resolution cases at concrete merges. -/
theorem C4_framework_flag_override_witness :
    (∃ nfl, mergeOutFw.flags = some nfl ∧
      nfl.take pW.frac_coords.length =
        List.replicate pW.frac_coords.length (false, true, false) ∧
      nfl.drop pW.frac_coords.length =
        List.replicate (mergeOutFw.frac_coords.length - pW.frac_coords.length)
          ((some (true, false, true) : Option Flag3).getD (true, true, true))) ∧
    (∃ nfl, mergeOutKeep.flags = some nfl ∧
      nfl.take pWSel.frac_coords.length = [(false, false, false)] ∧
      nfl.drop pWSel.frac_coords.length =
        List.replicate (mergeOutKeep.frac_coords.length - pWSel.frac_coords.length)
          ((some (true, false, true) : Option Flag3).getD (true, true, true))) ∧
    (∃ nfl, mergeOutSel.flags = some nfl ∧
      nfl.take pW.frac_coords.length =
        List.replicate pW.frac_coords.length (true, true, true) ∧
      nfl.drop pW.frac_coords.length =
        List.replicate (mergeOutSel.frac_coords.length - pW.frac_coords.length)
          ((some (false, false, false) : Option Flag3).getD (true, true, true))) :=
  ⟨(C4_framework_flag_override (fun q => q) pW [ionW] false
      (some (true, false, true)) (some (false, true, false)) mergeOutFw
      (by simp) mergeFwEval).1 (false, true, false) rfl,
   (C4_framework_flag_override (fun q => q) pWSel [ionW] false
      (some (true, false, true)) none mergeOutKeep
      (by simp) mergeKeepEval).2.1 [(false, false, false)] rfl rfl rfl rfl,
   (C4_framework_flag_override (fun q => q) pW [ionW] false
      (some (false, false, false)) none mergeOutSel
      (by simp) mergeSelEval).2.2 rfl rfl (Or.inr rfl)⟩

/-! ### C8: degenerate-segment behaviour of the placement anchor -/

theorem normSq_eq_zero (v : Vec3) :
    normSq v = 0 ↔ v = ((0 : ℚ), (0 : ℚ), (0 : ℚ)) := by
  obtain ⟨x, y, z⟩ := v
  simp only [normSq]
  constructor
  · intro h
    have hx : x = 0 := by nlinarith [mul_self_nonneg x, mul_self_nonneg y, mul_self_nonneg z]
    have hy : y = 0 := by nlinarith [mul_self_nonneg x, mul_self_nonneg y, mul_self_nonneg z]
    have hz : z = 0 := by nlinarith [mul_self_nonneg x, mul_self_nonneg y, mul_self_nonneg z]
    simp [hx, hy, hz]
  · intro h
    obtain ⟨h1, h2, h3⟩ := Prod.mk.injEq .. ▸ h
    simp_all

theorem vsub_eq_zero (u v : Vec3) :
    vsub u v = ((0 : ℚ), (0 : ℚ), (0 : ℚ)) ↔ u = v := by
  obtain ⟨x, y, z⟩ := u
  obtain ⟨a, b, c⟩ := v
  simp [vsub, Prod.ext_iff, sub_eq_zero]

theorem latticeCart_err {cbrt : ℚ → ℚ} {p : Poscar} {e : Err}
    (h : latticeCart cbrt p = .error e) : e = .invalidVolume := by
  rw [latticeCart] at h
  dsimp only at h
  split at h
  · exact absurd h (by simp)
  · split at h
    · simpa using h.symm
    · exact absurd h (by simp)

theorem matInv3_err {M : Mat3} {e : Err} (h : matInv3 M = .error e) :
    e = .singularMatrix := by
  rw [matInv3] at h
  split at h
  · simpa using h.symm
  · exact absurd h (by simp)

theorem applyCounts_err {items : List (String × ℤ)} {syms : List String}
    {counts : List ℤ} {e : Err}
    (h : applyCounts items syms counts = .error e) : e = .indexOut := by
  induction items generalizing syms counts with
  | nil => rw [applyCounts] at h; exact absurd h (by simp)
  | cons it rest ih =>
    rw [applyCounts] at h
    dsimp only at h
    split at h
    · split at h
      · exact ih h
      · simpa using h.symm
    · split at h
      · exact ih h
      · exact ih h

theorem insertTail_ne_degenerate (cbrt : ℚ → ℚ) (p : Poscar)
    (rels : List DefAtom) (anchor : Vec3) (wrap : Bool)
    (fl fw : Option Flag3) :
    insertTail cbrt p rels anchor wrap fl fw ≠ .error .degenerateSegment := by
  intro h
  rw [insertTail] at h
  cases hL : latticeCart cbrt p with
  | error e =>
    rw [hL] at h; simp only [exBind_err] at h
    have := latticeCart_err hL
    simp only [Except.error.injEq] at h
    simp [h] at this
  | ok L =>
    rw [hL] at h
    simp only [exBind_ok] at h
    cases hI : matInv3 L with
    | error e =>
      rw [hI] at h; simp only [exBind_err] at h
      have := matInv3_err hI
      simp only [Except.error.injEq] at h
      simp [h] at this
    | ok Linv =>
      rw [hI] at h
      simp only [exBind_ok] at h
      cases hA : applyCounts (countItems ((rels.map (fun r =>
          let f := matVec Linv (vadd anchor r.2)
          (r.1, if wrap then vecMod1 f else f))).map Prod.fst)) p.symbols p.counts with
      | error e =>
        rw [hA] at h; simp only [exBind_err] at h
        have := applyCounts_err hA
        simp only [Except.error.injEq] at h
        simp [h] at this
      | ok sc =>
        obtain ⟨s1, s2⟩ := sc
        rw [hA] at h
        simp only [exBind_ok] at h
        exact absurd h (by simp)

theorem computeAnchor_mid_deg_iff (rsqrt : ℚ → ℚ) (c1 c2 : Vec3) (offm : ℚ)
    (offdir : String) (ox oy oz : ℚ)
    (hq : ∀ q, rsqrt q = 0 ↔ q = 0) :
    computeAnchor rsqrt c1 c2 strMidpoint offm offdir ox oy oz =
      .error .degenerateSegment ↔ (c1 = c2 ∧ offm ≠ 0) := by
  rw [computeAnchor, if_pos rfl]
  by_cases ho : 0 < abs offm
  · rw [if_pos ho]
    have hoff : offm ≠ 0 := by
      intro h0; rw [h0] at ho; simp at ho
    by_cases hz : rsqrt (normSq (vsub c2 c1)) = 0
    · rw [if_pos hz]
      have : c1 = c2 := by
        have h2 := (hq _).mp hz
        have h3 := (normSq_eq_zero _).mp h2
        exact ((vsub_eq_zero c2 c1).mp h3).symm
      simp [this, hoff]
    · rw [if_neg hz]
      constructor
      · intro h; exact absurd h (by simp)
      · rintro ⟨hc, -⟩
        exfalso
        apply hz
        rw [hq]
        rw [normSq_eq_zero, vsub_eq_zero]
        exact hc.symm
  · rw [if_neg ho]
    have hoff : offm = 0 := by
      rcases (abs_nonneg offm).eq_or_gt with h | h
      · exact (abs_eq_zero.mp h)
      · exact absurd h ho
    constructor
    · intro h; exact absurd h (by simp)
    · rintro ⟨-, h⟩; exact absurd hoff h

/-- C8: for the placement block shared by both insertions, in `midpoint`
mode a `DegenerateSegment` failure happens exactly when the two points
coincide and a non-zero along-axis offset was requested; with a zero
offset the anchor is the midpoint plus the custom offset even for
coincident points; `first`/`second` modes never raise it and anchor at
the chosen point plus the custom offset; and the full insertion
operations fail with `DegenerateSegment` exactly under the same
condition (given a template that passes its own checks).  The hypothesis
on `rsqrt` is the defining property of the real square root used by the
source (`x ** 0.5 = 0` iff `x = 0` for the non-negative squared norms it
is applied to). -/
theorem C8_degenerate_segment (rsqrt cbrt : ℚ → ℚ) (p : Poscar)
    (atoms : List DefAtom) (c1 c2 : Vec3) (wrap : Bool)
    (fl fw : Option Flag3) (offm : ℚ) (offdir : String) (ox oy oz : ℚ)
    (hq : ∀ q, rsqrt q = 0 ↔ q = 0) :
    (computeAnchor rsqrt c1 c2 strMidpoint offm offdir ox oy oz =
       .error .degenerateSegment ↔ (c1 = c2 ∧ offm ≠ 0)) ∧
    (offm = 0 →
      computeAnchor rsqrt c1 c2 strMidpoint offm offdir ox oy oz =
        .ok (vadd ((c1.1 + c2.1) / 2, (c1.2.1 + c2.2.1) / 2,
          (c1.2.2 + c2.2.2) / 2) (ox, oy, oz))) ∧
    (computeAnchor rsqrt c1 c2 strFirst offm offdir ox oy oz =
      .ok (vadd c1 (ox, oy, oz))) ∧
    (computeAnchor rsqrt c1 c2 strSecond offm offdir ox oy oz =
      .ok (vadd c2 (ox, oy, oz))) ∧
    (atoms.filter (fun a => startsWithStr a.1 pfxN) ≠ [] →
      (addAmmonia rsqrt cbrt p atoms c1 c2 strMidpoint wrap fl fw offm offdir
        ox oy oz = .error .degenerateSegment ↔ (c1 = c2 ∧ offm ≠ 0))) ∧
    (atoms.length = 2 →
      (addHydrogen rsqrt cbrt p atoms c1 c2 strMidpoint wrap fl fw offm offdir
        ox oy oz = .error .degenerateSegment ↔ (c1 = c2 ∧ offm ≠ 0))) := by
  have hmid := computeAnchor_mid_deg_iff rsqrt c1 c2 offm offdir ox oy oz hq
  refine ⟨hmid, ?_, ?_, ?_, ?_, ?_⟩
  · intro h0
    rw [computeAnchor, if_pos rfl, if_neg (by simp [h0])]
  · rw [computeAnchor, if_neg (by decide), if_pos rfl]
  · rw [computeAnchor, if_neg (by decide), if_neg (by decide), if_pos rfl]
  · intro hN
    cases hf : atoms.filter (fun a => startsWithStr a.1 pfxN) with
    | nil => exact absurd hf hN
    | cons nAtom rest =>
      rw [addAmmonia, hf]
      cases hA : computeAnchor rsqrt c1 c2 strMidpoint offm offdir ox oy oz with
      | error e =>
        simp only [exBind_err]
        have hdeg : e = .degenerateSegment := by
          rw [computeAnchor, if_pos rfl] at hA
          split at hA
          · dsimp only at hA
            split at hA
            · simpa using hA.symm
            · exact absurd hA (by simp)
          · exact absurd hA (by simp)
        subst hdeg
        simp only [Except.error.injEq, true_iff]
        exact hmid.mp hA
      | ok anchor =>
        simp only [exBind_ok]
        constructor
        · intro h
          exact absurd h (insertTail_ne_degenerate cbrt p
            (ammoniaRels atoms nAtom.2) anchor wrap fl fw)
        · intro hc
          exact absurd hA (by simp [hmid.mpr hc])
  · intro hlen
    have hne : atoms ≠ [] := by
      intro h0; rw [h0] at hlen; simp at hlen
    rw [addHydrogen, if_neg hne, if_neg (by simp [hlen])]
    cases hA : computeAnchor rsqrt c1 c2 strMidpoint offm offdir ox oy oz with
    | error e =>
      simp only [exBind_err]
      have hdeg : e = .degenerateSegment := by
        rw [computeAnchor, if_pos rfl] at hA
        split at hA
        · dsimp only at hA
          split at hA
          · simpa using hA.symm
          · exact absurd hA (by simp)
        · exact absurd hA (by simp)
      subst hdeg
      simp only [Except.error.injEq, true_iff]
      exact hmid.mp hA
    | ok anchor =>
      simp only [exBind_ok]
      constructor
      · intro h
        exact absurd h (insertTail_ne_degenerate cbrt p
          (hydrogenRels atoms (h2Center atoms)) anchor wrap fl fw)
      · intro hc
        exact absurd hA (by simp [hmid.mpr hc])

/-- Witness for C8 at coincident points `(1,1,1)`, with `rsqrt` taken as
the identity function (which satisfies the stated square-root property). -/
theorem C8_degenerate_segment_witness :
    (computeAnchor (fun q => q) ((1 : ℚ), 1, 1) ((1 : ℚ), 1, 1) strMidpoint 2
       strPlus 0 0 0 = .error .degenerateSegment ↔
       (((1 : ℚ), 1, 1) : Vec3) = ((1 : ℚ), 1, 1) ∧ (2 : ℚ) ≠ 0) ∧
    (computeAnchor (fun q => q) ((1 : ℚ), 1, 1) ((1 : ℚ), 1, 1) strMidpoint 0
       strPlus 0 0 0 =
       .ok (vadd (((1 : ℚ) + 1) / 2, ((1 : ℚ) + 1) / 2, ((1 : ℚ) + 1) / 2)
         (0, 0, 0))) ∧
    (computeAnchor (fun q => q) ((1 : ℚ), 1, 1) ((1 : ℚ), 1, 1) strFirst 2
       strPlus 0 0 0 = .ok (vadd ((1 : ℚ), 1, 1) (0, 0, 0))) ∧
    (computeAnchor (fun q => q) ((1 : ℚ), 1, 1) ((1 : ℚ), 1, 1) strSecond 2
       strPlus 0 0 0 = .ok (vadd ((1 : ℚ), 1, 1) (0, 0, 0))) ∧
    (addAmmonia (fun q => q) (fun q => q) pW nh3W ((1 : ℚ), 1, 1)
       ((1 : ℚ), 1, 1) strMidpoint false none none 2 strPlus 0 0 0 =
       .error .degenerateSegment ↔
       (((1 : ℚ), 1, 1) : Vec3) = ((1 : ℚ), 1, 1) ∧ (2 : ℚ) ≠ 0) ∧
    (addHydrogen (fun q => q) (fun q => q) pW h2W ((1 : ℚ), 1, 1)
       ((1 : ℚ), 1, 1) strMidpoint false none none 2 strPlus 0 0 0 =
       .error .degenerateSegment ↔
       (((1 : ℚ), 1, 1) : Vec3) = ((1 : ℚ), 1, 1) ∧ (2 : ℚ) ≠ 0) :=
  ⟨(C8_degenerate_segment (fun q => q) (fun q => q) pW nh3W ((1 : ℚ), 1, 1)
      ((1 : ℚ), 1, 1) false none none 2 strPlus 0 0 0 (fun _ => Iff.rfl)).1,
   (C8_degenerate_segment (fun q => q) (fun q => q) pW nh3W ((1 : ℚ), 1, 1)
      ((1 : ℚ), 1, 1) false none none 0 strPlus 0 0 0
      (fun _ => Iff.rfl)).2.1 rfl,
   (C8_degenerate_segment (fun q => q) (fun q => q) pW nh3W ((1 : ℚ), 1, 1)
      ((1 : ℚ), 1, 1) false none none 2 strPlus 0 0 0
      (fun _ => Iff.rfl)).2.2.1,
   (C8_degenerate_segment (fun q => q) (fun q => q) pW nh3W ((1 : ℚ), 1, 1)
      ((1 : ℚ), 1, 1) false none none 2 strPlus 0 0 0
      (fun _ => Iff.rfl)).2.2.2.1,
   (C8_degenerate_segment (fun q => q) (fun q => q) pW nh3W ((1 : ℚ), 1, 1)
      ((1 : ℚ), 1, 1) false none none 2 strPlus 0 0 0
      (fun _ => Iff.rfl)).2.2.2.2.1 (by decide),
   (C8_degenerate_segment (fun q => q) (fun q => q) pW h2W ((1 : ℚ), 1, 1)
      ((1 : ℚ), 1, 1) false none none 2 strPlus 0 0 0
      (fun _ => Iff.rfl)).2.2.2.2.2 (by decide)⟩

/-! ### C7: trajectory frame selection -/

/-- Two distinguishable atoms and a two-frame trajectory. -/
def pdbA1 : PdbAtom := mkPdbAtom "Na" 1 0 0

def pdbA2 : PdbAtom := mkPdbAtom "K" 2 0 0

def pdbLinesW : List PdbLine :=
  [.model, .atomRec pdbA1, .endmdl, .model, .atomRec pdbA2, .endmdl]

/-- Counterexample to C7: on a 2-frame trajectory, index `-2` should
select frame `n + k = 0` (the first frame, `[pdbA1]`) under the claim,
but the reader returns the last frame `[pdbA2]`. -/
theorem C7_counterexample :
    readPdbFrame pdbLinesW (-2) = .ok [pdbA2] ∧ [pdbA2] ≠ [pdbA1] :=
  ⟨rfl, by decide⟩

/-- C7 (amended): a *negative* index always resolves to the last frame
(`n - 1`), whatever its value; a non-negative index `k` returns frame `k`
when `k < n` and fails with `FrameIndexOutOfRange` exactly when `k ≥ n`. -/
theorem C7_frame_selection_amended (lines : List PdbLine) (k : ℤ)
    (frames0 : List (List PdbAtom)) (current : List PdbAtom) (inModel : Bool)
    (hrun : pdbLoop lines [] [] false false = (frames0, current, inModel, true))
    (hfr : (if inModel then frames0 ++ [current] else frames0) ≠ []) :
    (k < 0 → readPdbFrame lines k =
      .ok ((if inModel then frames0 ++ [current] else frames0).getD
        ((if inModel then frames0 ++ [current] else frames0).length - 1) [])) ∧
    (0 ≤ k →
      (k < (if inModel then frames0 ++ [current] else frames0).length →
        readPdbFrame lines k =
          .ok ((if inModel then frames0 ++ [current] else frames0).getD
            k.toNat [])) ∧
      ((if inModel then frames0 ++ [current] else frames0).length ≤ k →
        readPdbFrame lines k = .error .frameOutOfRange)) := by
  set frames := (if inModel then frames0 ++ [current] else frames0) with hframes
  have hlen : 1 ≤ frames.length := by
    cases hh : frames with
    | nil => exact absurd hh hfr
    | cons a l => simp [hh]
  rw [readPdbFrame, hrun]
  dsimp only
  rw [if_pos rfl]
  simp only [← hframes]
  rw [if_neg hfr]
  refine ⟨?_, ?_⟩
  · intro hk
    have hks : ¬ (0 ≤ k) := by omega
    simp only [if_neg hks]
    have hidx : ¬ ((frames.length : ℤ) - 1 < 0 ∨
        (frames.length : ℤ) ≤ (frames.length : ℤ) - 1) := by
      push_neg
      constructor <;> omega
    rw [if_neg hidx]
    congr 1
    congr 1
    omega
  · intro hk
    simp only [if_pos hk]
    refine ⟨?_, ?_⟩
    · intro hklt
      rw [if_neg (by push_neg; exact ⟨by omega, by omega⟩)]
    · intro hkge
      rw [if_pos (by right; omega)]

/-- Witness for C7 (amended) on the two-frame trajectory: `-2` gives the
last frame, `1` gives frame 1, `5` is out of range. -/
theorem C7_frame_selection_amended_witness :
    readPdbFrame pdbLinesW (-2) = .ok [pdbA2] ∧
    readPdbFrame pdbLinesW 1 = .ok [pdbA2] ∧
    readPdbFrame pdbLinesW 5 = .error .frameOutOfRange :=
  ⟨(C7_frame_selection_amended pdbLinesW (-2) [[pdbA1], [pdbA2]] [] false rfl
      (by simp)).1 (by decide),
   ((C7_frame_selection_amended pdbLinesW 1 [[pdbA1], [pdbA2]] [] false rfl
      (by simp)).2 (by decide)).1 (by decide),
   ((C7_frame_selection_amended pdbLinesW 5 [[pdbA1], [pdbA2]] [] false rfl
      (by simp)).2 (by decide)).2 (by decide)⟩

/-! ### C5: selective-dynamics parse behaviour -/

/-- Characterization of the coordinate loop under selective dynamics:
it returns one coordinate per line read, and one flag triple per line
that carried at least 6 tokens — nothing for the short lines. -/
theorem readCoords_flags_shape (ct : String) (Linv : Mat3) :
    ∀ (n : Nat) (lines : List Line) (cs : List Vec3) (fs : List Flag3),
      readCoords ct true Linv n lines = .ok (cs, fs) →
      cs.length = n ∧
      fs.length = ((lines.take n).filter (fun l => 6 ≤ l.toks.length)).length ∧
      ((∀ l ∈ lines.take n, l.toks.length < 6) →
        fillFlags fs n = List.replicate n (true, true, true)) := by
  intro n
  induction n with
  | zero =>
    intro lines cs fs h
    rw [readCoords] at h
    simp only [Except.ok.injEq, Prod.mk.injEq] at h
    obtain ⟨h1, h2⟩ := h
    subst h1; subst h2
    refine ⟨rfl, by simp, ?_⟩
    intro _
    simp [fillFlags]
  | succ n ih =>
    intro lines cs fs h
    cases lines with
    | nil => rw [readCoords] at h; exact absurd h (by simp)
    | cons l ls =>
      rw [readCoords] at h
      split at h
      · exact absurd h (by simp)
      · cases hx : tokFloatQ (l.toks.getD 0 tokDefault) with
        | error e => rw [hx] at h; simp only [exBind_err] at h; exact absurd h (by simp)
        | ok x =>
        rw [hx] at h; simp only [exBind_ok] at h
        cases hy : tokFloatQ (l.toks.getD 1 tokDefault) with
        | error e => rw [hy] at h; simp only [exBind_err] at h; exact absurd h (by simp)
        | ok y =>
        rw [hy] at h; simp only [exBind_ok] at h
        cases hz : tokFloatQ (l.toks.getD 2 tokDefault) with
        | error e => rw [hz] at h; simp only [exBind_err] at h; exact absurd h (by simp)
        | ok z =>
        rw [hz] at h; simp only [exBind_ok] at h
        cases hrec : readCoords ct true Linv n ls with
        | error e => rw [hrec] at h; simp only [exBind_err] at h; exact absurd h (by simp)
        | ok p =>
        obtain ⟨cs', fs'⟩ := p
        rw [hrec] at h; simp only [exBind_ok] at h
        simp only [Except.ok.injEq, Prod.mk.injEq] at h
        obtain ⟨hcs, hfs⟩ := h
        subst hcs; subst hfs
        obtain ⟨ih1, ih2, ih3⟩ := ih ls cs' fs' hrec
        refine ⟨by simp [ih1], ?_, ?_⟩
        · by_cases h6 : 6 ≤ l.toks.length
          · simp [List.filter, h6, ih2]
          · simp [List.filter, h6, ih2]
        · intro hall
          simp only [List.take_succ_cons] at hall
          have hl : l.toks.length < 6 := hall l (List.mem_cons_self l _)
          have hcnt : ((ls.take n).filter (fun l => 6 ≤ l.toks.length)) = [] := by
            rw [List.filter_eq_nil]
            intro a ha
            have h2 := hall a (List.mem_cons_of_mem l ha)
            simp only [decide_eq_true_eq]
            omega
          have hfs' : fs' = [] := by
            apply List.eq_nil_of_length_eq_zero
            rw [ih2, hcnt]
            rfl
          have hc6 : ¬ (True ∧ 6 ≤ l.toks.length) := by
            intro hc
            exact absurd hc.2 (by omega)
          rw [hfs', if_neg hc6]
          simp [fillFlags]

theorem readSymbolsCounts_suffix {l5 : Line} {rest1 : List Line}
    {syms : List String} {counts : List ℤ} {rest2 : List Line}
    (h : readSymbolsCounts l5 rest1 = .ok (syms, counts, rest2)) :
    List.IsSuffix rest2 rest1 := by
  rw [readSymbolsCounts] at h
  by_cases ht : l5.toks = []
  · rw [if_pos ht] at h; exact absurd h (by simp)
  · rw [if_neg ht] at h
    cases hm : l5.toks.mapM Tok.asInt with
    | some ns =>
      rw [hm] at h
      dsimp only at h
      simp only [Except.ok.injEq, Prod.mk.injEq] at h
      obtain ⟨h1, h2, h3⟩ := h
      subst h3
      exact List.suffix_rfl
    | none =>
      rw [hm] at h
      dsimp only at h
      cases rest1 with
      | nil => exact absurd h (by simp)
      | cons l6 r2 =>
        dsimp only at h
        cases hm2 : l6.toks.mapM Tok.asInt with
        | none => rw [hm2] at h; exact absurd h (by simp)
        | some ns =>
          rw [hm2] at h
          dsimp only at h
          split at h
          · split at h
            · simp only [Except.ok.injEq, Prod.mk.injEq] at h
              rw [← h.2.2]
              exact List.suffix_cons l6 r2
            · exact absurd h (by simp)
          · simp only [Except.ok.injEq, Prod.mk.injEq] at h
            rw [← h.2.2]
            exact List.suffix_cons l6 r2

theorem readSelCT_suffix {rest2 : List Line} {sel : Bool} {ct : String}
    {rest3 : List Line}
    (h : readSelCT rest2 = .ok (sel, ct, rest3)) :
    List.IsSuffix rest3 rest2 := by
  cases rest2 with
  | nil => rw [readSelCT.eq_def] at h; exact absurd h (by simp)
  | cons l r2 =>
    rw [readSelCT.eq_def] at h
    dsimp only at h
    split at h
    · cases r2 with
      | nil => exact absurd h (by simp)
      | cons l2 r3 =>
        dsimp only at h
        cases hct : parseCT (stripStr l2.raw) with
        | error e =>
          rw [hct] at h; simp only [exBind_err] at h; exact absurd h (by simp)
        | ok ct2 =>
          rw [hct] at h
          simp only [exBind_ok, Except.ok.injEq, Prod.mk.injEq] at h
          rw [← h.2.2]
          exact (List.suffix_cons l2 r3).trans (List.suffix_cons l (l2 :: r3))
    · cases hct : parseCT (stripStr l.raw) with
      | error e =>
        rw [hct] at h; simp only [exBind_err] at h; exact absurd h (by simp)
      | ok ct2 =>
        rw [hct] at h
        simp only [exBind_ok, Except.ok.injEq, Prod.mk.injEq] at h
        rw [← h.2.2]
        exact List.suffix_cons l r2

/-- Inversion of a successful selective-dynamics parse: the returned
flags are exactly `fillFlags` of the triples collected by the coordinate
loop on a suffix of the file's lines. -/
theorem readPoscar_selective_flags {cbrt : ℚ → ℚ} {lines : List Line}
    {p : Poscar} (h : readPoscar cbrt lines = .ok p)
    (hsel : p.has_selective = true) :
    ∃ rest3 Linv fs, List.IsSuffix rest3 lines ∧
      readCoords p.coord_type true Linv p.counts.sum.toNat rest3 =
        .ok (p.frac_coords, fs) ∧
      p.flags = some (fillFlags fs p.counts.sum.toNat) := by
  rcases lines with _ | ⟨l0, _ | ⟨l1, _ | ⟨l2, _ | ⟨l3, _ | ⟨l4, rest⟩⟩⟩⟩⟩
  · rw [readPoscar] at h
    exact absurd h (by simp)
    intro a b c d e f hh
    simp at hh
  · rw [readPoscar] at h
    exact absurd h (by simp)
    intro a b c d e f hh
    simp at hh
  · rw [readPoscar] at h
    exact absurd h (by simp)
    intro a b c d e f hh
    simp at hh
  · rw [readPoscar] at h
    exact absurd h (by simp)
    intro a b c d e f hh
    simp at hh
  · rw [readPoscar] at h
    exact absurd h (by simp)
    intro a b c d e f hh
    simp at hh
  · rw [readPoscar] at h
    by_cases hlen : (l0 :: l1 :: l2 :: l3 :: l4 :: rest).length < 8
    · rw [if_pos hlen] at h; exact absurd h (by simp)
    · rw [if_neg hlen] at h
      dsimp only at h
      cases hscale : l1.lineFloat with
      | none => rw [hscale] at h; dsimp only at h; exact absurd h (by simp)
      | some sc =>
      rw [hscale] at h
      dsimp only at h
      simp only [exBind_ok] at h
      cases hr0 : readLattRow l2 with
      | error e => rw [hr0] at h; simp only [exBind_err] at h; exact absurd h (by simp)
      | ok r0 =>
      rw [hr0] at h; simp only [exBind_ok] at h
      cases hr1 : readLattRow l3 with
      | error e => rw [hr1] at h; simp only [exBind_err] at h; exact absurd h (by simp)
      | ok r1 =>
      rw [hr1] at h; simp only [exBind_ok] at h
      cases hr2 : readLattRow l4 with
      | error e => rw [hr2] at h; simp only [exBind_err] at h; exact absurd h (by simp)
      | ok r2 =>
      rw [hr2] at h; simp only [exBind_ok] at h
      cases rest with
      | nil => exact absurd h (by simp)
      | cons l5 rest1 =>
      dsimp only at h
      cases hsc : readSymbolsCounts l5 rest1 with
      | error e => rw [hsc] at h; simp only [exBind_err] at h; exact absurd h (by simp)
      | ok v =>
      obtain ⟨syms, counts, rest2⟩ := v
      rw [hsc] at h; simp only [exBind_ok] at h
      cases hsct : readSelCT rest2 with
      | error e => rw [hsct] at h; simp only [exBind_err] at h; exact absurd h (by simp)
      | ok w =>
      obtain ⟨sel, ct, rest3⟩ := w
      rw [hsct] at h; simp only [exBind_ok] at h
      dsimp only at h
      cases hL : latticeCart cbrt
          { comment := stripStr l0.raw, scale := sc, lattice := (r0, r1, r2),
            symbols := syms, counts := counts, has_selective := sel,
            coord_type := ct, frac_coords := [], flags := none } with
      | error e => rw [hL] at h; simp only [exBind_err] at h; exact absurd h (by simp)
      | ok L =>
      rw [hL] at h; simp only [exBind_ok] at h
      cases hInv : matInv3 L with
      | error e => rw [hInv] at h; simp only [exBind_err] at h; exact absurd h (by simp)
      | ok Linv =>
      rw [hInv] at h; simp only [exBind_ok] at h
      cases hrc : readCoords ct sel Linv counts.sum.toNat rest3 with
      | error e => rw [hrc] at h; simp only [exBind_err] at h; exact absurd h (by simp)
      | ok pr =>
      obtain ⟨fcs, fls⟩ := pr
      rw [hrc] at h; simp only [exBind_ok] at h
      simp only [Except.ok.injEq] at h
      subst h
      simp only at hsel
      subst hsel
      refine ⟨rest3, Linv, fls, ?_, ?_, ?_⟩
      · have h1 := readSelCT_suffix hsct
        have h2 := readSymbolsCounts_suffix hsc
        exact h1.trans (h2.trans ((List.suffix_cons l5 rest1).trans
          ((List.suffix_cons l4 _).trans ((List.suffix_cons l3 _).trans
            ((List.suffix_cons l2 _).trans ((List.suffix_cons l1 _).trans
              (List.suffix_cons l0 _)))))))
      · exact hrc
      · simp

/-- A word token (parses as neither int nor float). -/
def wTok (s : String) : Tok := { raw := s, asInt := none, asFloat := none }

/-- A selective-dynamics file with two atoms whose first coordinate line
has only 3 tokens while the second carries 6 (flags `F F F`). -/
def mixedLinesW : List Line :=
  [ { raw := "c", lineFloat := none, toks := [] },
    { raw := "1.0", lineFloat := some 1, toks := [] },
    { raw := "", lineFloat := none, toks := [fTok 10, fTok 0, fTok 0] },
    { raw := "", lineFloat := none, toks := [fTok 0, fTok 10, fTok 0] },
    { raw := "", lineFloat := none, toks := [fTok 0, fTok 0, fTok 10] },
    { raw := "1 1", lineFloat := none, toks := [iTok 1, iTok 1] },
    { raw := "Selective dynamics", lineFloat := none, toks := [] },
    { raw := "Direct", lineFloat := none, toks := [] },
    { raw := "", lineFloat := none, toks := [fTok 0, fTok 0, fTok 0] },
    { raw := "", lineFloat := none,
      toks := [fTok 0, fTok 0, fTok 0, wTok "F", wTok "F", wTok "F"] } ]

/-- What `read_poscar` returns on `mixedLinesW`. -/
def mixedOutW : Poscar :=
  { comment := "c", scale := 1,
    lattice := ((10, 0, 0), (0, 10, 0), (0, 0, 10)),
    symbols := [], counts := [1, 1], has_selective := true,
    coord_type := "Direct", frac_coords := [(0, 0, 0), (0, 0, 0)],
    flags := some [(false, false, false)] }

/-- Counterexample to C5: on a selective file where one coordinate line
has fewer than 6 tokens and another has 6, the parser returns a flags
list with a single entry — not `sum(counts) = 2` entries, and the
3-token atom does not receive a default `(T,T,T)`. -/
theorem C5_counterexample :
    readPoscar (fun q => q) mixedLinesW = .ok mixedOutW ∧
    mixedOutW.has_selective = true ∧
    mixedOutW.counts.sum = 2 ∧
    mixedOutW.flags = some [(false, false, false)] ∧
    ¬ ([((false : Bool), (false : Bool), (false : Bool))] : List Flag3).length = 2 := by
  refine ⟨?_, rfl, by decide, rfl, by decide⟩
  norm_num +decide [readPoscar, readLattRow, readSymbolsCounts, readSelCT,
    parseCT, readCoords, fillFlags, tokFloatQ, latticeCart, matInv3, matVec,
    msmul, vsmul, singEps, startsT, stripStr, lowerStr, upperStr,
    startsWithStr, strS, strD, strC, strK, strT, ctDirect, ctCartesian,
    fTok, iTok, wTok, tokDefault, mixedLinesW, mixedOutW, List.mapM, List.mapM.loop,
    List.replicate]

/-- C5 (amended): when selective dynamics is on, the coordinate loop
returns one coordinate per line but collects a flag triple only from the
lines with at least 6 tokens, in file order; the `(T,T,T)` default fill
to `sum(counts)` entries happens only when *no* coordinate line carried
6 tokens (so in mixed files the flags list is shorter than the atom
count and not index-aligned); and every successful selective parse's
flags are exactly this fill of the collected triples. -/
theorem C5_selective_flags_amended :
    (∀ (ct : String) (Linv : Mat3) (n : Nat) (lines : List Line)
        (cs : List Vec3) (fs : List Flag3),
      readCoords ct true Linv n lines = .ok (cs, fs) →
      cs.length = n ∧
      fs.length = ((lines.take n).filter (fun l => 6 ≤ l.toks.length)).length ∧
      ((∀ l ∈ lines.take n, l.toks.length < 6) →
        fillFlags fs n = List.replicate n (true, true, true))) ∧
    (∀ (cbrt : ℚ → ℚ) (lines : List Line) (p : Poscar),
      readPoscar cbrt lines = .ok p → p.has_selective = true →
      ∃ rest3 Linv fs, List.IsSuffix rest3 lines ∧
        readCoords p.coord_type true Linv p.counts.sum.toNat rest3 =
          .ok (p.frac_coords, fs) ∧
        p.flags = some (fillFlags fs p.counts.sum.toNat)) :=
  ⟨fun ct Linv n lines cs fs h => readCoords_flags_shape ct Linv n lines cs fs h,
   fun _ _ _ h hs => readPoscar_selective_flags h hs⟩

/-- An all-short selective file (no coordinate line has 6 tokens). -/
def shortLinesW : List Line :=
  [ { raw := "c", lineFloat := none, toks := [] },
    { raw := "1.0", lineFloat := some 1, toks := [] },
    { raw := "", lineFloat := none, toks := [fTok 10, fTok 0, fTok 0] },
    { raw := "", lineFloat := none, toks := [fTok 0, fTok 10, fTok 0] },
    { raw := "", lineFloat := none, toks := [fTok 0, fTok 0, fTok 10] },
    { raw := "2", lineFloat := none, toks := [iTok 2] },
    { raw := "Selective dynamics", lineFloat := none, toks := [] },
    { raw := "Direct", lineFloat := none, toks := [] },
    { raw := "", lineFloat := none, toks := [fTok 0, fTok 0, fTok 0] },
    { raw := "", lineFloat := none, toks := [fTok 0, fTok 0, fTok 0] } ]

/-- What `read_poscar` returns on `shortLinesW`: the uniform default
fill. -/
def shortOutW : Poscar :=
  { comment := "c", scale := 1,
    lattice := ((10, 0, 0), (0, 10, 0), (0, 0, 10)),
    symbols := [], counts := [2], has_selective := true,
    coord_type := "Direct", frac_coords := [(0, 0, 0), (0, 0, 0)],
    flags := some [(true, true, true), (true, true, true)] }

theorem shortLinesEval :
    readPoscar (fun q => q) shortLinesW = .ok shortOutW := by
  norm_num +decide [readPoscar, readLattRow, readSymbolsCounts, readSelCT,
    parseCT, readCoords, fillFlags, tokFloatQ, latticeCart, matInv3, matVec,
    msmul, vsmul, singEps, startsT, stripStr, lowerStr, upperStr,
    startsWithStr, strS, strD, strC, strK, strT, ctDirect, ctCartesian,
    fTok, iTok, wTok, tokDefault, shortLinesW, shortOutW, List.mapM, List.mapM.loop,
    List.replicate]

def shortCoordLinesW : List Line :=
  [ { raw := "", lineFloat := none, toks := [fTok 0, fTok 0, fTok 0] },
    { raw := "", lineFloat := none, toks := [fTok 0, fTok 0, fTok 0] } ]

theorem shortCoordsEval :
    readCoords ctDirect true ((1, 0, 0), (0, 1, 0), (0, 0, 1)) 2
      shortCoordLinesW =
      .ok ([((0 : ℚ), (0 : ℚ), (0 : ℚ)), ((0 : ℚ), (0 : ℚ), (0 : ℚ))], []) := by
  norm_num +decide [readCoords, tokFloatQ, fTok, tokDefault, ctDirect,
    startsT, upperStr, startsWithStr, strT, shortCoordLinesW]

/-- Witness for C5 (amended): the all-short two-atom coordinate section
collects no flags and default-fills to two `(T,T,T)` rows, and the full
parse of the all-short selective file carries exactly that fill. -/
theorem C5_selective_flags_amended_witness :
    (([((0 : ℚ), (0 : ℚ), (0 : ℚ)), ((0 : ℚ), (0 : ℚ), (0 : ℚ))] :
        List Vec3).length = 2 ∧
      ([] : List Flag3).length =
        ((shortCoordLinesW.take 2).filter (fun l => 6 ≤ l.toks.length)).length ∧
      ((∀ l ∈ shortCoordLinesW.take 2, l.toks.length < 6) →
        fillFlags [] 2 = List.replicate 2 (true, true, true))) ∧
    (∃ rest3 Linv fs, List.IsSuffix rest3 shortLinesW ∧
      readCoords shortOutW.coord_type true Linv shortOutW.counts.sum.toNat
        rest3 = .ok (shortOutW.frac_coords, fs) ∧
      shortOutW.flags = some (fillFlags fs shortOutW.counts.sum.toNat)) :=
  ⟨C5_selective_flags_amended.1 ctDirect ((1, 0, 0), (0, 1, 0), (0, 0, 1)) 2
      shortCoordLinesW _ _ shortCoordsEval,
   C5_selective_flags_amended.2 (fun q => q) shortLinesW shortOutW
      shortLinesEval rfl⟩

/-! ### C9: symbols/counts reconciliation -/

theorem parseCT_err {t : String} {e : Err} (h : parseCT t = .error e) :
    e = .unknownCoordType := by
  rw [parseCT] at h
  split at h
  · exact absurd h (by simp)
  · split at h
    · exact absurd h (by simp)
    · simpa using h.symm

theorem readSelCT_err {rest : List Line} {e : Err}
    (h : readSelCT rest = .error e) :
    e = .indexOut ∨ e = .unknownCoordType := by
  cases rest with
  | nil =>
    rw [readSelCT.eq_def] at h
    simp only [Except.error.injEq] at h
    exact Or.inl h.symm
  | cons l r2 =>
    rw [readSelCT.eq_def] at h
    dsimp only at h
    split at h
    · cases r2 with
      | nil =>
        simp only [Except.error.injEq] at h
        exact Or.inl h.symm
      | cons l2 r3 =>
        dsimp only at h
        cases hct : parseCT (stripStr l2.raw) with
        | error e2 =>
          rw [hct] at h
          simp only [exBind_err, Except.error.injEq] at h
          exact Or.inr (h ▸ parseCT_err hct)
        | ok ct2 =>
          rw [hct] at h
          simp only [exBind_ok] at h
          exact absurd h (by simp)
    · cases hct : parseCT (stripStr l.raw) with
      | error e2 =>
        rw [hct] at h
        simp only [exBind_err, Except.error.injEq] at h
        exact Or.inr (h ▸ parseCT_err hct)
      | ok ct2 =>
        rw [hct] at h
        simp only [exBind_ok] at h
        exact absurd h (by simp)

theorem tokFloatQ_err {t : Tok} {e : Err} (h : tokFloatQ t = .error e) :
    e = .badNumber := by
  rw [tokFloatQ] at h
  split at h
  · exact absurd h (by simp)
  · simpa using h.symm

theorem readCoords_err {ct : String} {sel : Bool} {Linv : Mat3} :
    ∀ {n : Nat} {lines : List Line} {e : Err},
      readCoords ct sel Linv n lines = .error e →
      e = .truncated ∨ e = .shortCoordLine ∨ e = .badNumber := by
  intro n
  induction n with
  | zero => intro lines e h; rw [readCoords] at h; exact absurd h (by simp)
  | succ n ih =>
    intro lines e h
    cases lines with
    | nil =>
      rw [readCoords] at h
      simp only [Except.error.injEq] at h
      exact Or.inl h.symm
    | cons l ls =>
      rw [readCoords] at h
      split at h
      · simp only [Except.error.injEq] at h
        exact Or.inr (Or.inl h.symm)
      · cases hx : tokFloatQ (l.toks.getD 0 tokDefault) with
        | error e2 =>
          rw [hx] at h; simp only [exBind_err, Except.error.injEq] at h
          exact Or.inr (Or.inr (h ▸ tokFloatQ_err hx))
        | ok x =>
        rw [hx] at h; simp only [exBind_ok] at h
        cases hy : tokFloatQ (l.toks.getD 1 tokDefault) with
        | error e2 =>
          rw [hy] at h; simp only [exBind_err, Except.error.injEq] at h
          exact Or.inr (Or.inr (h ▸ tokFloatQ_err hy))
        | ok y =>
        rw [hy] at h; simp only [exBind_ok] at h
        cases hz : tokFloatQ (l.toks.getD 2 tokDefault) with
        | error e2 =>
          rw [hz] at h; simp only [exBind_err, Except.error.injEq] at h
          exact Or.inr (Or.inr (h ▸ tokFloatQ_err hz))
        | ok z =>
        rw [hz] at h; simp only [exBind_ok] at h
        cases hrec : readCoords ct sel Linv n ls with
        | error e2 =>
          rw [hrec] at h; simp only [exBind_err, Except.error.injEq] at h
          exact h ▸ ih hrec
        | ok pr =>
          obtain ⟨cs, fs⟩ := pr
          rw [hrec] at h; simp only [exBind_ok] at h
          exact absurd h (by simp)

/-- C9: when a structure file has a (non-integer-token) symbols line, the
following line must be all-integer counts or the parse fails with
`MissingCountsLine`; a counts line longer than the symbols line fails
with `SymbolCountMismatch`; a symbols line longer than the counts line is
truncated to the counts length and the reconciliation does not fail —
any structure the parse returns carries the truncated symbols.  The
hypotheses state that the header (comment, scale, lattice) is
well-formed, so the parse actually reaches the symbols section. -/
theorem C9_symbols_counts_reconciliation (cbrt : ℚ → ℚ)
    (l0 l1 l2 l3 l4 l5 l6 : Line) (rest : List Line) (sc : ℚ)
    (r0 r1 r2 : Vec3)
    (hrest : rest ≠ [])
    (hne : l5.toks ≠ []) (hnint : l5.toks.mapM Tok.asInt = none)
    (hsc : l1.lineFloat = some sc)
    (h2 : readLattRow l2 = .ok r0) (h3 : readLattRow l3 = .ok r1)
    (h4 : readLattRow l4 = .ok r2) :
    (l6.toks.mapM Tok.asInt = none →
      readPoscar cbrt (l0 :: l1 :: l2 :: l3 :: l4 :: l5 :: l6 :: rest) =
        .error .missingCounts) ∧
    (∀ ns, l6.toks.mapM Tok.asInt = some ns →
      (l5.toks.length < ns.length →
        readPoscar cbrt (l0 :: l1 :: l2 :: l3 :: l4 :: l5 :: l6 :: rest) =
          .error .symbolCountMismatch) ∧
      (ns.length < l5.toks.length →
        readPoscar cbrt (l0 :: l1 :: l2 :: l3 :: l4 :: l5 :: l6 :: rest) ≠
          .error .symbolCountMismatch ∧
        ∀ p, readPoscar cbrt (l0 :: l1 :: l2 :: l3 :: l4 :: l5 :: l6 :: rest)
            = .ok p →
          p.symbols =
            (l5.toks.map (fun t => normalizeElement t.raw)).take ns.length)) := by
  have hlen : ¬ (l0 :: l1 :: l2 :: l3 :: l4 :: l5 :: l6 :: rest).length < 8 := by
    cases rest with
    | nil => exact absurd rfl hrest
    | cons a l => simp only [List.length_cons]; omega
  have hmap : (l5.toks.map (fun t => normalizeElement t.raw)).length =
      l5.toks.length := List.length_map _ _
  have hne0 : (l5.toks.map (fun t => normalizeElement t.raw)).length ≠ 0 := by
    rw [hmap]
    intro h0
    exact hne (List.eq_nil_of_length_eq_zero h0)
  have hpre : ∀ k : Except Err (List String × List ℤ × List Line),
      readSymbolsCounts l5 (l6 :: rest) = k →
      readPoscar cbrt (l0 :: l1 :: l2 :: l3 :: l4 :: l5 :: l6 :: rest) =
        (k >>= fun scr =>
          readSelCT scr.2.2 >>= fun w =>
            (latticeCart cbrt
              { comment := stripStr l0.raw, scale := sc,
                lattice := (r0, r1, r2), symbols := scr.1,
                counts := scr.2.1, has_selective := w.1,
                coord_type := w.2.1, frac_coords := [], flags := none }) >>=
              fun L => matInv3 L >>= fun Linv =>
                readCoords w.2.1 w.1 Linv scr.2.1.sum.toNat w.2.2 >>=
                  fun cf => .ok
                    { comment := stripStr l0.raw, scale := sc,
                      lattice := (r0, r1, r2), symbols := scr.1,
                      counts := scr.2.1, has_selective := w.1,
                      coord_type := w.2.1, frac_coords := cf.1,
                      flags := if w.1 then
                          some (fillFlags cf.2 scr.2.1.sum.toNat)
                        else none }) := by
    intro k hk
    rw [readPoscar, if_neg hlen]
    dsimp only
    rw [hsc]
    dsimp only
    simp only [exBind_ok]
    rw [h2]
    simp only [exBind_ok]
    rw [h3]
    simp only [exBind_ok]
    rw [h4]
    simp only [exBind_ok]
    rw [hk]
  refine ⟨?_, ?_⟩
  · intro hl6
    have hsym : readSymbolsCounts l5 (l6 :: rest) = .error .missingCounts := by
      rw [readSymbolsCounts, if_neg hne, hnint]
      dsimp only
      rw [hl6]
    rw [hpre _ hsym]
    simp only [exBind_err]
  · intro ns hl6
    refine ⟨?_, ?_⟩
    · intro hlt
      have hsym : readSymbolsCounts l5 (l6 :: rest) =
          .error .symbolCountMismatch := by
        rw [readSymbolsCounts, if_neg hne, hnint]
        dsimp only
        rw [hl6]
        dsimp only
        rw [if_pos ⟨hne0, by omega⟩, if_neg (by omega)]
      rw [hpre _ hsym]
      simp only [exBind_err]
    · intro hgt
      have hsym : readSymbolsCounts l5 (l6 :: rest) =
          .ok ((l5.toks.map (fun t => normalizeElement t.raw)).take ns.length,
            ns, rest) := by
        rw [readSymbolsCounts, if_neg hne, hnint]
        dsimp only
        rw [hl6]
        dsimp only
        rw [if_pos ⟨hne0, by omega⟩, if_pos (by omega)]
      rw [hpre _ hsym]
      simp only [exBind_ok]
      cases hsct : readSelCT rest with
      | error e =>
        simp only [exBind_err]
        have he := readSelCT_err hsct
        constructor
        · intro hcon
          simp only [Except.error.injEq] at hcon
          rcases he with he | he <;> simp [hcon] at he
        · intro p hp
          exact absurd hp (by simp)
      | ok w =>
        obtain ⟨sel, ct, rest3⟩ := w
        simp only [exBind_ok]
        cases hL : latticeCart cbrt
            { comment := stripStr l0.raw, scale := sc,
              lattice := (r0, r1, r2),
              symbols := (l5.toks.map (fun t => normalizeElement t.raw)).take
                ns.length,
              counts := ns, has_selective := sel, coord_type := ct,
              frac_coords := [], flags := none } with
        | error e =>
          simp only [exBind_err]
          have he := latticeCart_err hL
          constructor
          · intro hcon
            simp only [Except.error.injEq] at hcon
            simp [hcon] at he
          · intro p hp
            exact absurd hp (by simp)
        | ok L =>
          simp only [exBind_ok]
          cases hI : matInv3 L with
          | error e =>
            simp only [exBind_err]
            have he := matInv3_err hI
            constructor
            · intro hcon
              simp only [Except.error.injEq] at hcon
              simp [hcon] at he
            · intro p hp
              exact absurd hp (by simp)
          | ok Linv =>
            simp only [exBind_ok]
            cases hrc : readCoords ct sel Linv ns.sum.toNat rest3 with
            | error e =>
              simp only [exBind_err]
              have he := readCoords_err hrc
              constructor
              · intro hcon
                simp only [Except.error.injEq] at hcon
                rcases he with he | he | he <;> simp [hcon] at he
              · intro p hp
                exact absurd hp (by simp)
            | ok cf =>
              obtain ⟨fcs, fls⟩ := cf
              simp only [exBind_ok]
              constructor
              · intro hcon
                exact absurd hcon (by simp)
              · intro p hp
                simp only [Except.ok.injEq] at hp
                rw [← hp]

/-! Witness material for C9: three concrete header+symbols files. -/

def hdr0 : Line := { raw := "c", lineFloat := none, toks := [] }

def hdr1 : Line := { raw := "1.0", lineFloat := some 1, toks := [] }

def rowA : Line := { raw := "", lineFloat := none, toks := [fTok 10, fTok 0, fTok 0] }

def rowB : Line := { raw := "", lineFloat := none, toks := [fTok 0, fTok 10, fTok 0] }

def rowC : Line := { raw := "", lineFloat := none, toks := [fTok 0, fTok 0, fTok 10] }

def symsOneL5 : Line := { raw := "Si", lineFloat := none, toks := [wTok "Si"] }

def symsTwoL5 : Line := { raw := "Si O", lineFloat := none, toks := [wTok "Si", wTok "O"] }

def countsOneL6 : Line := { raw := "1", lineFloat := none, toks := [iTok 1] }

def countsTwoL6 : Line := { raw := "1 1", lineFloat := none, toks := [iTok 1, iTok 1] }

def badCountsL6 : Line := { raw := "x", lineFloat := none, toks := [wTok "x"] }

def tailW : List Line :=
  [ { raw := "Direct", lineFloat := none, toks := [] },
    { raw := "", lineFloat := none, toks := [fTok 0, fTok 0, fTok 0] } ]

theorem rowA_eval : readLattRow rowA = .ok (10, 0, 0) := by
  norm_num +decide [readLattRow, tokFloatQ, fTok, tokDefault, rowA]

theorem rowB_eval : readLattRow rowB = .ok (0, 10, 0) := by
  norm_num +decide [readLattRow, tokFloatQ, fTok, tokDefault, rowB]

theorem rowC_eval : readLattRow rowC = .ok (0, 0, 10) := by
  norm_num +decide [readLattRow, tokFloatQ, fTok, tokDefault, rowC]

/-- Witness for C9: the three reconciliation outcomes at concrete files. -/
theorem C9_symbols_counts_reconciliation_witness :
    readPoscar (fun q => q)
      (hdr0 :: hdr1 :: rowA :: rowB :: rowC :: symsOneL5 :: badCountsL6 ::
        tailW) = .error .missingCounts ∧
    readPoscar (fun q => q)
      (hdr0 :: hdr1 :: rowA :: rowB :: rowC :: symsOneL5 :: countsTwoL6 ::
        tailW) = .error .symbolCountMismatch ∧
    (readPoscar (fun q => q)
      (hdr0 :: hdr1 :: rowA :: rowB :: rowC :: symsTwoL5 :: countsOneL6 ::
        tailW) ≠ .error .symbolCountMismatch ∧
     ∀ p, readPoscar (fun q => q)
        (hdr0 :: hdr1 :: rowA :: rowB :: rowC :: symsTwoL5 :: countsOneL6 ::
          tailW) = .ok p →
       p.symbols =
         (symsTwoL5.toks.map (fun t => normalizeElement t.raw)).take
           ([(1 : ℤ)] : List ℤ).length) :=
  ⟨(C9_symbols_counts_reconciliation (fun q => q) hdr0 hdr1 rowA rowB rowC
      symsOneL5 badCountsL6 tailW 1 (10, 0, 0) (0, 10, 0) (0, 0, 10)
      (by simp [tailW]) (by simp [symsOneL5]) rfl rfl rowA_eval rowB_eval
      rowC_eval).1 rfl,
   ((C9_symbols_counts_reconciliation (fun q => q) hdr0 hdr1 rowA rowB rowC
      symsOneL5 countsTwoL6 tailW 1 (10, 0, 0) (0, 10, 0) (0, 0, 10)
      (by simp [tailW]) (by simp [symsOneL5]) rfl rfl rowA_eval rowB_eval
      rowC_eval).2 [1, 1] rfl).1 (by decide),
   ((C9_symbols_counts_reconciliation (fun q => q) hdr0 hdr1 rowA rowB rowC
      symsTwoL5 countsOneL6 tailW 1 (10, 0, 0) (0, 10, 0) (0, 0, 10)
      (by simp [tailW]) (by simp [symsTwoL5]) rfl rfl rowA_eval rowB_eval
      rowC_eval).2 [1] rfl).2 (by decide)⟩

/-! ### C2: merge count bookkeeping -/

/-- The keys of the grouped association list, in insertion order. -/
def keysG (g : List (String × List Vec3)) : List String := g.map Prod.fst

/-- Total number of grouped coordinates. -/
def totalG (g : List (String × List Vec3)) : Nat :=
  (g.map (fun e => e.2.length)).sum

theorem list_sum_set (l : List ℤ) (i : Nat) (v : ℤ) (h : i < l.length) :
    (l.set i v).sum = l.sum - l.getD i 0 + v := by
  induction l generalizing i with
  | nil => simp at h
  | cons a t ih =>
    cases i with
    | zero => simp [List.sum_cons]; ring
    | succ n =>
      simp only [List.set_cons_succ, List.sum_cons, List.getD_cons_succ]
      rw [ih n (by simpa using h)]
      ring

theorem lookupGrp_isSome_iff {g : List (String × List Vec3)} {s : String} :
    (lookupGrp g s).isSome ↔ s ∈ keysG g := by
  induction g with
  | nil => simp [lookupGrp, keysG]
  | cons e rest ih =>
    obtain ⟨k, vs⟩ := e
    simp only [lookupGrp, keysG, List.map_cons, List.mem_cons]
    by_cases hk : k = s
    · subst hk; simp
    · rw [if_neg hk]
      rw [keysG] at ih
      rw [ih]
      constructor
      · exact fun hm => Or.inr hm
      · rintro (hm | hm)
        · exact absurd hm.symm hk
        · exact hm

theorem addPair_keys (g : List (String × List Vec3)) (s : String) (v : Vec3) :
    keysG (addPair g s v) =
      if s ∈ keysG g then keysG g else keysG g ++ [s] := by
  induction g with
  | nil => simp [addPair, keysG]
  | cons e rest ih =>
    obtain ⟨k, vs⟩ := e
    by_cases hk : k = s
    · subst hk
      simp [addPair, keysG]
    · have hkeys : keysG ((k, vs) :: addPair rest s v) =
        k :: keysG (addPair rest s v) := rfl
      have hcons : keysG ((k, vs) :: rest) = k :: keysG rest := rfl
      rw [addPair, if_neg hk, hkeys, ih, hcons]
      by_cases hmem : s ∈ keysG rest
      · rw [if_pos hmem, if_pos (List.mem_cons_of_mem k hmem)]
      · rw [if_neg hmem, if_neg (by
          intro hcon
          rcases List.mem_cons.mp hcon with h1 | h1
          · exact hk h1.symm
          · exact hmem h1)]
        rfl

theorem addPair_total (g : List (String × List Vec3)) (s : String) (v : Vec3) :
    totalG (addPair g s v) = totalG g + 1 := by
  induction g with
  | nil => simp [addPair, totalG]
  | cons e rest ih =>
    obtain ⟨k, vs⟩ := e
    by_cases hk : k = s
    · subst hk
      simp [addPair, totalG]
      omega
    · simp only [addPair, if_neg hk, totalG, List.map_cons, List.sum_cons] at ih ⊢
      omega

theorem addPair_keys_nodup {g : List (String × List Vec3)} (s : String)
    (v : Vec3) (h : (keysG g).Nodup) : (keysG (addPair g s v)).Nodup := by
  rw [addPair_keys]
  by_cases hmem : s ∈ keysG g
  · rw [if_pos hmem]; exact h
  · rw [if_neg hmem]
    simp [List.nodup_append, h, hmem]

theorem groupStep_total : ∀ (l : List (String × Vec3))
    (g : List (String × List Vec3)),
    totalG (l.foldl (fun g sv => addPair g sv.1 sv.2) g) = totalG g + l.length
  | [], g => by simp
  | sv :: rest, g => by
    simp only [List.foldl_cons, List.length_cons]
    rw [groupStep_total rest (addPair g sv.1 sv.2), addPair_total]
    omega

theorem groupStep_keys : ∀ (l : List (String × Vec3))
    (g : List (String × List Vec3)) (acc : List String),
    keysG g = acc →
    keysG (l.foldl (fun g sv => addPair g sv.1 sv.2) g) =
      firstSeen acc (l.map Prod.fst)
  | [], g, acc, h => by simpa [firstSeen] using h
  | sv :: rest, g, acc, h => by
    simp only [List.foldl_cons, List.map_cons, firstSeen]
    apply groupStep_keys rest
    rw [addPair_keys, h]

theorem groupStep_keys_nodup : ∀ (l : List (String × Vec3))
    (g : List (String × List Vec3)),
    (keysG g).Nodup →
    (keysG (l.foldl (fun g sv => addPair g sv.1 sv.2) g)).Nodup
  | [], g, h => by simpa using h
  | sv :: rest, g, h => by
    simp only [List.foldl_cons]
    exact groupStep_keys_nodup rest _ (addPair_keys_nodup _ _ h)

theorem groupPairs_total (l : List (String × Vec3)) :
    totalG (groupPairs l) = l.length := by
  rw [groupPairs, groupStep_total]
  simp [totalG]

theorem groupPairs_keys (l : List (String × Vec3)) :
    keysG (groupPairs l) = firstSeen [] (l.map Prod.fst) := by
  rw [groupPairs]
  exact groupStep_keys l [] [] (by simp [keysG])

theorem groupPairs_keys_nodup (l : List (String × Vec3)) :
    (keysG (groupPairs l)).Nodup := by
  rw [groupPairs]
  exact groupStep_keys_nodup l [] (by simp [keysG])

/-- Deletion of a key from the grouped list (a proof device; not part of
the source). -/
def removeKeyG (g : List (String × List Vec3)) (s : String) :
    List (String × List Vec3) :=
  g.filter (fun e => e.1 != s)

theorem lookupGrp_removeKey {g : List (String × List Vec3)} {s t : String}
    (h : t ≠ s) : lookupGrp (removeKeyG g s) t = lookupGrp g t := by
  induction g with
  | nil => simp [removeKeyG, lookupGrp]
  | cons e rest ih =>
    obtain ⟨k, vs⟩ := e
    by_cases hk : k = s
    · subst hk
      have hkt : ¬ k = t := fun hc => h hc.symm
      simp only [removeKeyG, List.filter_cons, bne_self_eq_false]
      rw [if_neg (by simp)]
      simp only [removeKeyG] at ih
      rw [ih]
      conv_rhs => rw [lookupGrp]
      rw [if_neg hkt]
    · simp only [removeKeyG, List.filter_cons]
      have hb : (k != s) = true := by simpa using hk
      rw [hb, if_pos rfl]
      simp only [removeKeyG] at ih
      by_cases hkt : k = t
      · subst hkt
        simp [lookupGrp]
      · rw [lookupGrp, if_neg hkt, ih]
        conv_rhs => rw [lookupGrp]
        rw [if_neg hkt]

theorem removeKeyG_eq_self {g : List (String × List Vec3)} {s : String}
    (h : s ∉ keysG g) : removeKeyG g s = g := by
  induction g with
  | nil => rfl
  | cons e rest ih =>
    obtain ⟨k, vs⟩ := e
    simp only [keysG, List.map_cons, List.mem_cons, not_or] at h
    obtain ⟨hk, hrest⟩ := h
    simp only [removeKeyG, List.filter_cons]
    have hb : (k != s) = true := by
      simpa using fun hc => hk (hc.symm : s = k)
    rw [hb, if_pos rfl]
    simp only [removeKeyG] at ih
    rw [ih hrest]

theorem keysG_removeKey (g : List (String × List Vec3)) (s : String) :
    keysG (removeKeyG g s) = (keysG g).filter (fun k => k != s) := by
  induction g with
  | nil => rfl
  | cons e rest ih =>
    obtain ⟨k, vs⟩ := e
    simp only [removeKeyG, keysG, List.filter_cons, List.map_cons]
    by_cases hk : k = s
    · subst hk
      simp only [bne_self_eq_false]
      simpa [removeKeyG, keysG] using ih
    · have hb : (k != s) = true := by simpa using hk
      rw [hb]
      simp only [List.map_cons]
      simpa [removeKeyG, keysG] using congrArg (k :: ·) ih

theorem totalG_removeKey {g : List (String × List Vec3)} {s : String}
    {vs : List Vec3} (hnd : (keysG g).Nodup) (h : lookupGrp g s = some vs) :
    totalG g = vs.length + totalG (removeKeyG g s) := by
  induction g with
  | nil => simp [lookupGrp] at h
  | cons e rest ih =>
    obtain ⟨k, ws⟩ := e
    have hnd2 : (keysG rest).Nodup := by
      simpa [keysG] using hnd.of_cons
    by_cases hk : k = s
    · subst hk
      rw [lookupGrp, if_pos rfl] at h
      simp only [Option.some.injEq] at h
      subst h
      have hknot : k ∉ keysG rest := by
        have := hnd
        simp only [keysG, List.map_cons, List.nodup_cons] at this
        exact this.1
      simp only [removeKeyG, List.filter_cons, bne_self_eq_false]
      have : removeKeyG rest k = rest := removeKeyG_eq_self hknot
      simp only [removeKeyG] at this
      rw [this]
      simp [totalG]
    · rw [lookupGrp, if_neg hk] at h
      simp only [removeKeyG, List.filter_cons]
      have hb : (k != s) = true := by simpa using hk
      rw [hb, if_pos rfl]
      have := ih hnd2 h
      simp only [totalG, List.map_cons, List.sum_cons] at this ⊢
      simp only [removeKeyG, totalG] at this
      omega

theorem pickGroups_length (ks : List String)
    (g : List (String × List Vec3)) :
    (pickGroups ks g).length =
      (ks.map (fun s => ((lookupGrp g s).getD []).length)).sum := by
  induction ks with
  | nil => simp [pickGroups]
  | cons s rest ih => simp [pickGroups, ih]

theorem pickGroups_congr {ks : List String}
    {g g' : List (String × List Vec3)}
    (h : ∀ t ∈ ks, lookupGrp g t = lookupGrp g' t) :
    pickGroups ks g = pickGroups ks g' := by
  induction ks with
  | nil => rfl
  | cons s rest ih =>
    simp only [pickGroups]
    rw [h s (by simp), ih (fun t ht => h t (by simp [ht]))]

theorem pickGroups_total : ∀ (ks : List String)
    (g : List (String × List Vec3)),
    ks.Nodup → (keysG g).Nodup → (∀ k ∈ keysG g, k ∈ ks) →
    (pickGroups ks g).length = totalG g
  | [], g, _, _, hsub => by
    have : keysG g = [] := List.eq_nil_iff_forall_not_mem.mpr
      (fun k hk => (List.not_mem_nil k) (hsub k hk))
    have hg : g = [] := by
      cases g with
      | nil => rfl
      | cons e r => simp [keysG] at this
    subst hg
    simp [pickGroups, totalG]
  | s :: rest, g, hnd, hgnd, hsub => by
    simp only [pickGroups, List.length_append]
    cases hl : lookupGrp g s with
    | none =>
      have hnot : s ∉ keysG g := by
        intro hc
        have := lookupGrp_isSome_iff.mpr hc
        rw [hl] at this
        simp at this
      have hsub2 : ∀ k ∈ keysG g, k ∈ rest := by
        intro k hk
        rcases List.mem_cons.mp (hsub k hk) with h1 | h1
        · exact absurd (h1 ▸ hk) hnot
        · exact h1
      rw [pickGroups_total rest g hnd.of_cons hgnd hsub2]
      simp
    | some vs =>
      have hmem : s ∈ keysG g := by
        have : (lookupGrp g s).isSome := by rw [hl]; rfl
        exact lookupGrp_isSome_iff.mp this
      have hsnot : s ∉ rest := (List.nodup_cons.mp hnd).1
      have hpick : pickGroups rest g = pickGroups rest (removeKeyG g s) :=
        pickGroups_congr (fun t ht =>
          (lookupGrp_removeKey (fun hc => hsnot (by rw [← hc]; exact ht))).symm)
      have hgnd2 : (keysG (removeKeyG g s)).Nodup := by
        rw [keysG_removeKey]
        exact hgnd.filter _
      have hsub2 : ∀ k ∈ keysG (removeKeyG g s), k ∈ rest := by
        intro k hk
        rw [keysG_removeKey] at hk
        have hk2 := List.of_mem_filter hk
        have hk3 := List.mem_of_mem_filter hk
        have hkne : k ≠ s := by simpa using hk2
        rcases List.mem_cons.mp (hsub k hk3) with h1 | h1
        · exact absurd h1 hkne
        · exact h1
      rw [hpick, pickGroups_total rest (removeKeyG g s) hnd.of_cons hgnd2 hsub2]
      rw [totalG_removeKey hgnd hl]
      simp [hl]

theorem mergeCountsLoop_syms_mono {g : List (String × List Vec3)} :
    ∀ {seen : List String} {syms : List String} {counts : List ℤ}
      {sc : List String × List ℤ},
      mergeCountsLoop g seen syms counts = .ok sc →
      ∀ x ∈ syms, x ∈ sc.1 := by
  intro seen
  induction seen with
  | nil =>
    intro syms counts sc h x hx
    rw [mergeCountsLoop] at h
    simp only [Except.ok.injEq] at h
    rw [← h]
    exact hx
  | cons s rest ih =>
    intro syms counts sc h x hx
    rw [mergeCountsLoop] at h
    split at h
    · dsimp only at h
      split at h
      · exact ih h x hx
      · exact absurd h (by simp)
    · split at h
      · exact ih h x (by simp [hx])
      · exact ih h x hx

theorem mergeCountsLoop_nil {g : List (String × List Vec3)} :
    ∀ {seen : List String} {counts : List ℤ} {sc : List String × List ℤ},
      mergeCountsLoop g seen [] counts = .ok sc → sc.1 = [] := by
  intro seen
  induction seen with
  | nil =>
    intro counts sc h
    rw [mergeCountsLoop] at h
    simp only [Except.ok.injEq] at h
    rw [← h]
  | cons s rest ih =>
    intro counts sc h
    rw [mergeCountsLoop] at h
    split at h
    · rename_i hc
      exact absurd rfl hc.1
    · split at h
      · rename_i hc2
        exact absurd rfl hc2
      · exact ih h

theorem mergeCountsLoop_covers {g : List (String × List Vec3)} :
    ∀ {seen : List String} {syms : List String} {counts : List ℤ}
      {sc : List String × List ℤ},
      mergeCountsLoop g seen syms counts = .ok sc → syms ≠ [] →
      ∀ s ∈ seen, s ∈ sc.1 := by
  intro seen
  induction seen with
  | nil => intro _ _ _ _ _ s hs; simp at hs
  | cons s0 rest ih =>
    intro syms counts sc h hne s hs
    rw [mergeCountsLoop] at h
    rcases List.mem_cons.mp hs with hh | hh
    · subst hh
      split at h
      · rename_i hc
        dsimp only at h
        split at h
        · exact mergeCountsLoop_syms_mono h s hc.2
        · exact absurd h (by simp)
      · exact mergeCountsLoop_syms_mono h s (by simp)
    · split at h
      · dsimp only at h
        split at h
        · exact ih h hne s hh
        · exact absurd h (by simp)
      · exact ih h (by simp) s hh

theorem mergeCountsLoop_nodup {g : List (String × List Vec3)} :
    ∀ {seen : List String} {syms : List String} {counts : List ℤ}
      {sc : List String × List ℤ},
      mergeCountsLoop g seen syms counts = .ok sc → syms.Nodup →
      sc.1.Nodup := by
  intro seen
  induction seen with
  | nil =>
    intro syms counts sc h hnd
    rw [mergeCountsLoop] at h
    simp only [Except.ok.injEq] at h
    rw [← h]
    exact hnd
  | cons s rest ih =>
    intro syms counts sc h hnd
    rw [mergeCountsLoop] at h
    split at h
    · dsimp only at h
      split at h
      · exact ih h hnd
      · exact absurd h (by simp)
    · rename_i hc
      split at h
      · rename_i hc2
        refine ih h ?_
        have hs : s ∉ syms := fun hmem => hc ⟨hc2, hmem⟩
        simp [List.nodup_append, hnd, hs]
      · exact ih h hnd

theorem mergeCountsLoop_sum {g : List (String × List Vec3)} :
    ∀ {seen : List String} {syms : List String} {counts : List ℤ}
      {sc : List String × List ℤ},
      mergeCountsLoop g seen syms counts = .ok sc →
      sc.2.sum = counts.sum +
        (seen.map (fun s => (((lookupGrp g s).getD []).length : ℤ))).sum := by
  intro seen
  induction seen with
  | nil =>
    intro syms counts sc h
    rw [mergeCountsLoop] at h
    simp only [Except.ok.injEq] at h
    rw [← h]
    simp
  | cons s rest ih =>
    intro syms counts sc h
    rw [mergeCountsLoop] at h
    split at h
    · dsimp only at h
      split at h
      · rename_i hlt
        rw [ih h, list_sum_set _ _ _ hlt]
        simp only [List.map_cons, List.sum_cons]
        ring
      · exact absurd h (by simp)
    · split at h
      · rw [ih h, List.sum_append]
        simp only [List.map_cons, List.sum_cons, List.sum_nil]
        ring
      · rw [ih h, List.sum_append]
        simp only [List.map_cons, List.sum_cons, List.sum_nil]
        ring

theorem sum_map_intCast (f : String → Nat) (l : List String) :
    (l.map (fun s => (f s : ℤ))).sum = ((l.map f).sum : ℤ) := by
  induction l with
  | nil => simp
  | cons a t ih => simp [ih]

/-- A structure whose symbols line repeats a species. -/
def pDup : Poscar :=
  { comment := "w", scale := 1, lattice := ((1, 0, 0), (0, 1, 0), (0, 0, 1)),
    symbols := ["Na", "Na"], counts := [1, 1], has_selective := false,
    coord_type := "Direct",
    frac_coords := [(0, 0, 0), (1/2, 1/2, 1/2)], flags := none }

/-- One sodium ion at `(1/4, 1/4, 1/4)`. -/
def ionQ : PdbAtom := mkPdbAtom "Na" (1/4) (1/4) (1/4)

/-- What the merge returns on `pDup`: the incoming coordinate is appended
once per duplicated symbol. -/
def dupOutW : Poscar :=
  { comment := "w", scale := 1, lattice := ((1, 0, 0), (0, 1, 0), (0, 0, 1)),
    symbols := ["Na", "Na"], counts := [2, 1], has_selective := false,
    coord_type := "Direct",
    frac_coords := [(0, 0, 0), (1/2, 1/2, 1/2), (1/4, 1/4, 1/4),
      (1/4, 1/4, 1/4)],
    flags := none }

/-- Counterexample to C2: merging ONE ion into a structure whose symbols
list contains a duplicate appends its coordinate twice — the output has
4 coordinates instead of `2 + 1 = 3`, and `sum(counts) = 3 ≠ 4` even
though it held on input. -/
theorem C2_counterexample :
    mergeIons (fun q => q) pDup [ionQ] true none none = .ok dupOutW ∧
    pDup.counts.sum = (pDup.frac_coords.length : ℤ) ∧
    dupOutW.frac_coords.length = 4 ∧
    pDup.frac_coords.length + 1 = 3 ∧
    dupOutW.counts.sum = 3 ∧
    ¬ (4 = 3) := by
  refine ⟨?_, by decide, rfl, rfl, by decide, by decide⟩
  norm_num +decide [mergeIons, latticeCart, msmul, vsmul, matInv3, singEps,
    matVec, mkPdbAtom, normalizeElement, stripStr, upperStr, lowerStr,
    startsWithStr, groupPairs, addPair, firstSeen, mergeCountsLoop, lookupGrp,
    pickGroups, resolveFlags, List.replicate, pDup, ionQ, dupOutW, vecMod1,
    fracPart]

/-- C2 (amended): for a structure whose symbols list has no duplicate
entries, a successful merge of a non-empty ion list appends exactly
`len(ions)` coordinates, and the count-sum invariant is preserved. -/
theorem C2_merge_count_amended (cbrt : ℚ → ℚ) (p : Poscar)
    (ions : List PdbAtom) (wrap : Bool) (ifl fw : Option Flag3) (out : Poscar)
    (hnd : p.symbols.Nodup) (hne : ions ≠ [])
    (h : mergeIons cbrt p ions wrap ifl fw = .ok out) :
    out.frac_coords.length = p.frac_coords.length + ions.length ∧
    (p.counts.sum = (p.frac_coords.length : ℤ) →
      out.counts.sum = (out.frac_coords.length : ℤ)) := by
  obtain ⟨L, Linv, sc, hL, hInv, hMC, hout⟩ := mergeIons_ok_elim h hne
  have hkeys : keysG (ionGroupsOf Linv ions wrap) = ionSeenOf ions := by
    rw [ionGroupsOf, ionSeenOf, groupPairs_keys]
    congr 1
    apply List.map_fst_zip
    simp
  have hknd : (keysG (ionGroupsOf Linv ions wrap)).Nodup := by
    rw [ionGroupsOf]
    exact groupPairs_keys_nodup _
  have htot : totalG (ionGroupsOf Linv ions wrap) = ions.length := by
    rw [ionGroupsOf, groupPairs_total, List.length_zip]
    simp
  have hsub_seen : ∀ k ∈ keysG (ionGroupsOf Linv ions wrap),
      k ∈ ionSeenOf ions := by
    intro k hk
    rw [hkeys] at hk
    exact hk
  have hseen_nd : (ionSeenOf ions).Nodup := hkeys ▸ hknd
  have hpicklen :
      (if sc.1 ≠ [] then pickGroups sc.1 (ionGroupsOf Linv ions wrap)
        else pickGroups (ionSeenOf ions)
          (ionGroupsOf Linv ions wrap)).length = ions.length := by
    by_cases hsc : sc.1 = []
    · rw [if_neg (by simp [hsc])]
      rw [pickGroups_total (ionSeenOf ions) _ hseen_nd hknd hsub_seen]
      exact htot
    · rw [if_pos hsc]
      have hpsym : p.symbols ≠ [] := by
        intro h0
        rw [h0] at hMC
        exact hsc (mergeCountsLoop_nil hMC)
      refine Eq.trans (pickGroups_total sc.1 _
        (mergeCountsLoop_nodup hMC hnd) hknd ?_) htot
      intro k hk
      exact mergeCountsLoop_covers hMC hpsym k (hsub_seen k hk)
  have hsum_nat :
      ((ionSeenOf ions).map
        (fun s => ((lookupGrp (ionGroupsOf Linv ions wrap) s).getD
          []).length)).sum = ions.length := by
    rw [← pickGroups_length]
    rw [pickGroups_total (ionSeenOf ions) _ hseen_nd hknd hsub_seen]
    exact htot
  subst hout
  refine ⟨?_, ?_⟩
  · dsimp only
    rw [List.length_append, hpicklen]
  · intro hinv
    have hs := mergeCountsLoop_sum hMC
    dsimp only
    rw [hs, sum_map_intCast, hsum_nat, hinv, List.length_append, hpicklen]
    push_cast
    ring

/-- Witness for C2 (amended) at the duplicate-free `pW`. -/
theorem C2_merge_count_amended_witness :
    mergeOutPlain.frac_coords.length =
      pW.frac_coords.length + ([ionW] : List PdbAtom).length ∧
    mergeOutPlain.counts.sum = (mergeOutPlain.frac_coords.length : ℤ) :=
  ⟨(C2_merge_count_amended (fun q => q) pW [ionW] false none none
      mergeOutPlain (by decide) (by simp) mergePlainEval).1,
   (C2_merge_count_amended (fun q => q) pW [ionW] false none none
      mergeOutPlain (by decide) (by simp) mergePlainEval).2 (by decide)⟩

/-! ### C1: round-trip of the structure codec -/

/-- The data-model invariants of a `Poscar` value (spec §3): symbol/count
alignment, count-sum equal to the atom count, a legal coordinate type,
and flags present exactly under selective dynamics with one row per
atom. -/
def PoscarValid (p : Poscar) : Prop :=
  (p.symbols ≠ [] → p.symbols.length = p.counts.length) ∧
  p.counts.sum = (p.frac_coords.length : ℤ) ∧
  (p.coord_type = ctDirect ∨ p.coord_type = ctCartesian) ∧
  (match p.flags with
   | some fl => p.has_selective = true ∧ fl.length = p.frac_coords.length
   | none => p.has_selective = false)

theorem msmul_one (m : Mat3) : msmul 1 m = m := by
  obtain ⟨⟨a, b, c⟩, ⟨d, e, f⟩, ⟨g, h, i⟩⟩ := m
  simp [msmul, vsmul]

theorem readLattRow_rowLine (r : Vec3) : readLattRow (rowLine r) = .ok r := by
  obtain ⟨x, y, z⟩ := r
  rfl

theorem matInv3_ok_of_det {M : Mat3} (h : ¬ abs (det3 M) < singEps) :
    ∃ Minv, matInv3 M = .ok Minv := by
  obtain ⟨⟨a, b, c⟩, ⟨d, e, f⟩, ⟨g, h', i⟩⟩ := M
  have hdet : a * (e * i - f * h') + b * -(d * i - f * g) + c * (d * h' - e * g) =
      det3 ((a, b, c), (d, e, f), (g, h', i)) := by
    simp only [det3]; ring
  rw [matInv3]
  dsimp only
  rw [hdet, if_neg h]
  exact ⟨_, rfl⟩

theorem mapM_loop_iTok : ∀ (l : List ℤ) (acc : List ℤ),
    List.mapM.loop Tok.asInt (l.map iTok) acc = some (acc.reverse ++ l) := by
  intro l
  induction l with
  | nil => intro acc; simp [List.mapM.loop]
  | cons a t ih =>
      intro acc
      simp only [List.map_cons, List.mapM.loop, iTok, Option.bind_eq_bind,
        Option.some_bind]
      rw [ih (a :: acc)]
      simp

theorem mapM_iTok (l : List ℤ) : (l.map iTok).mapM Tok.asInt = some l := by
  have := mapM_loop_iTok l []
  simpa [List.mapM] using this

theorem mapM_symTok (l : List String) (h : l ≠ []) :
    (l.map symTok).mapM Tok.asInt = none := by
  cases l with
  | nil => exact absurd rfl h
  | cons a t => simp [List.mapM, List.mapM.loop, symTok]

theorem startsT_boolTok (b : Bool) : startsT (boolTok b) = b := by
  cases b <;> rfl

theorem readSymbolsCounts_nosym (counts : List ℤ) (hne : counts ≠ [])
    (rest : List Line) :
    readSymbolsCounts { raw := "", lineFloat := none, toks := counts.map iTok }
      rest = .ok ([], counts, rest) := by
  rw [readSymbolsCounts]
  dsimp only
  rw [if_neg (by simpa using hne), mapM_iTok]

theorem readSymbolsCounts_sym (symbols : List String) (counts : List ℤ)
    (hne : symbols ≠ []) (hlen : symbols.length = counts.length)
    (hnorm : ∀ s ∈ symbols, normalizeElement s = s) (rest : List Line) :
    readSymbolsCounts
      { raw := "", lineFloat := none, toks := symbols.map symTok }
      ({ raw := "", lineFloat := none, toks := counts.map iTok } :: rest) =
      .ok (symbols, counts, rest) := by
  rw [readSymbolsCounts]
  dsimp only
  rw [if_neg (by simpa using hne), mapM_symTok symbols hne]
  dsimp only
  rw [mapM_iTok]
  have hmap : (symbols.map symTok).map (fun t => normalizeElement t.raw) =
      symbols := by
    rw [List.map_map]
    have : ∀ s ∈ symbols, (fun t => normalizeElement t.raw)
        (symTok s) = s := by
      intro s hs
      exact hnorm s hs
    calc symbols.map ((fun t => normalizeElement t.raw) ∘ symTok)
        = symbols.map id := List.map_congr_left this
      _ = symbols := List.map_id symbols
  rw [hmap]
  dsimp only
  rw [if_neg (by intro hc; exact hc.2 hlen)]

theorem readSelCT_sel (raw2 : String) (lf2 : Option ℚ) (toks2 : List Tok)
    {ctRes : String} (hct : parseCT (stripStr raw2) = .ok ctRes)
    (tail : List Line) :
    readSelCT ({ raw := "Selective dynamics", lineFloat := none, toks := [] } ::
      { raw := raw2, lineFloat := lf2, toks := toks2 } :: tail) =
      .ok (true, ctRes, tail) := by
  rw [readSelCT.eq_def]
  dsimp only
  rw [if_pos (by decide)]
  rw [hct]
  rfl

theorem tokFloatQ_fTok (q : ℚ) : tokFloatQ (fTok q) = .ok q := rfl

theorem readCoords_write_sel (ct : String) (Minv : Mat3) (conv : Vec3 → Vec3)
    (hconv : ∀ w, (if ct = ctDirect then conv w else matVec Minv (conv w)) = w)
    (fl : List Flag3) :
    ∀ (ws : List Vec3) (i : Nat), i + ws.length ≤ fl.length →
      readCoords ct true Minv ws.length
        (coordLines true (some fl) i (ws.map conv)) =
        .ok (ws, (fl.drop i).take ws.length) := by
  intro ws
  induction ws with
  | nil => intro i _; simp [coordLines, readCoords]
  | cons w ws ih =>
    intro i hbound
    have hi : i < fl.length := by
      simp only [List.length_cons] at hbound; omega
    have hft : flagToks true (some fl) i =
        [boolTok (fl.getD i (true, true, true)).1,
         boolTok (fl.getD i (true, true, true)).2.1,
         boolTok (fl.getD i (true, true, true)).2.2] := by
      rw [flagToks]
      rw [if_pos ⟨rfl, hi⟩]
    simp only [List.map_cons, List.length_cons, coordLines, hft]
    rw [readCoords]
    simp only [List.cons_append, List.nil_append, List.getD_cons_zero,
      List.getD_cons_succ, List.length_cons, List.length_nil,
      tokFloatQ_fTok, exBind_ok, startsT_boolTok]
    rw [if_neg (by omega)]
    have hrec := ih (i + 1) (by simp only [List.length_cons] at hbound; omega)
    rw [hrec]
    simp only [exBind_ok]
    have heta : ((conv w).1, (conv w).2.1, (conv w).2.2) = conv w := rfl
    rw [heta, hconv w]
    rw [if_pos (by simp)]
    have hdropi : fl.drop i = fl.getD i (true, true, true) :: fl.drop (i + 1) := by
      rw [List.getD_eq_getElem fl _ hi]
      exact List.drop_eq_getElem_cons hi
    rw [hdropi, List.take_succ_cons]
    simp

theorem readCoords_write_nosel (ct : String) (Minv : Mat3) (conv : Vec3 → Vec3)
    (hconv : ∀ w, (if ct = ctDirect then conv w else matVec Minv (conv w)) = w) :
    ∀ (ws : List Vec3) (i : Nat),
      readCoords ct false Minv ws.length
        (coordLines false none i (ws.map conv)) = .ok (ws, []) := by
  intro ws
  induction ws with
  | nil => intro i; simp [coordLines, readCoords]
  | cons w ws ih =>
    intro i
    have hft : flagToks false none i = [] := rfl
    simp only [List.map_cons, List.length_cons, coordLines, hft]
    rw [readCoords]
    simp only [List.append_nil, List.getD_cons_zero, List.getD_cons_succ,
      List.length_cons, List.length_nil, tokFloatQ_fTok, exBind_ok]
    rw [if_neg (by omega)]
    rw [ih (i + 1)]
    simp only [exBind_ok]
    have heta : ((conv w).1, (conv w).2.1, (conv w).2.2) = conv w := rfl
    rw [heta, hconv w]
    rw [if_neg (by simp)]
    simp

theorem readSelCT_nosel (raw2 : String) (lf2 : Option ℚ) (toks2 : List Tok)
    {ctRes : String}
    (hs : startsWithStr (lowerStr (stripStr raw2)) strS = false)
    (hct : parseCT (stripStr raw2) = .ok ctRes) (tail : List Line) :
    readSelCT ({ raw := raw2, lineFloat := lf2, toks := toks2 } :: tail) =
      .ok (false, ctRes, tail) := by
  rw [readSelCT.eq_def]
  dsimp only
  rw [if_neg (by simp [hs])]
  rw [hct]
  rfl

theorem coordLines_length (sel : Bool) (flags : Option (List Flag3)) :
    ∀ (i : Nat) (cs : List Vec3), (coordLines sel flags i cs).length = cs.length := by
  intro i cs
  induction cs generalizing i with
  | nil => rfl
  | cons c cs ih => simp [coordLines, ih]

theorem latticeCart_one (cbrt : ℚ → ℚ) (p : Poscar) (h : p.scale = 1) :
    latticeCart cbrt p = .ok p.lattice := by
  rw [latticeCart, h, if_pos one_pos, msmul_one]

/-- Parsing the line list `write_poscar` emits for a unit-scale structure
recovers every field, provided the data-model invariants hold, the lattice
is numerically invertible, the comment survives `strip`, and the symbols
are already normalized.  `conv` abstracts the coordinate transform the
writer applied (identity for Direct, `lattice ·` for Cartesian) and
`hconv` states that the parser's inverse transform undoes it. -/
theorem readPoscar_writeback (cbrt : ℚ → ℚ) (cm : String) (lat : Mat3)
    (syms : List String) (cnts : List ℤ) (sel : Bool) (ct : String)
    (fc : List Vec3) (flg : Option (List Flag3)) (Minv : Mat3)
    (conv : Vec3 → Vec3)
    (hcm : stripStr cm = cm)
    (hsym : ∀ s ∈ syms, normalizeElement s = s)
    (hlen : syms ≠ [] → syms.length = cnts.length)
    (hsum : cnts.sum = (fc.length : ℤ))
    (hfc : fc ≠ [])
    (hMinv : matInv3 lat = .ok Minv)
    (hconv : ∀ w, (if ct = ctDirect then conv w else matVec Minv (conv w)) = w)
    (hpct : parseCT (stripStr ct) = .ok ct)
    (hss : startsWithStr (lowerStr (stripStr ct)) strS = false)
    (hflg : match flg with
      | some fl => sel = true ∧ fl.length = fc.length
      | none => sel = false) :
    readPoscar cbrt
      ([{ raw := cm, lineFloat := none, toks := [] },
        { raw := "", lineFloat := some 1, toks := [] },
        rowLine lat.1, rowLine lat.2.1, rowLine lat.2.2]
        ++ (if syms = [] then []
            else [{ raw := "", lineFloat := none, toks := syms.map symTok }])
        ++ [{ raw := "", lineFloat := none, toks := cnts.map iTok }]
        ++ (if sel then
              [{ raw := "Selective dynamics", lineFloat := none, toks := [] }]
            else [])
        ++ [{ raw := ct, lineFloat := none, toks := [] }]
        ++ coordLines sel flg 0 (fc.map conv)) =
      .ok { comment := cm, scale := 1, lattice := lat, symbols := syms,
            counts := cnts, has_selective := sel, coord_type := ct,
            frac_coords := fc, flags := flg } := by
  have hfc1 : 1 ≤ fc.length := by
    cases fc with
    | nil => exact absurd rfl hfc
    | cons a t => simp
  have hcnts : cnts ≠ [] := by
    intro h0
    rw [h0] at hsum
    simp at hsum
    omega
  have hnat : cnts.sum.toNat = fc.length := by
    rw [hsum]
    exact Int.toNat_natCast fc.length
  simp only [List.cons_append, List.nil_append]
  rw [readPoscar]
  rw [if_neg (by
    simp only [List.length_append, List.length_cons, List.length_nil,
      coordLines_length, List.length_map]
    by_cases h1 : syms = [] <;> by_cases h2 : sel = true <;>
      simp [h1, h2] <;> omega)]
  rw [readLattRow_rowLine, readLattRow_rowLine, readLattRow_rowLine]
  simp only [exBind_ok]
  simp only [Prod.mk.eta]
  rw [hcm]
  by_cases hsy : syms = []
  · subst hsy
    rw [if_pos rfl]
    simp only [List.nil_append, List.cons_append]
    rw [readSymbolsCounts_nosym cnts hcnts]
    simp only [exBind_ok]
    cases flg with
    | none =>
      have hsel : sel = false := hflg
      subst hsel
      rw [if_neg (by simp)]
      simp only [List.nil_append, List.cons_append]
      rw [readSelCT_nosel ct none [] hss hpct]
      simp only [exBind_ok]
      dsimp only
      rw [latticeCart_one]
      · simp only [exBind_ok]
        rw [hMinv]
        simp only [exBind_ok]
        rw [hnat, readCoords_write_nosel ct Minv conv hconv fc 0]
        simp only [exBind_ok]
        rfl
      · rfl
    | some fl =>
      have hsel : sel = true := hflg.1
      have hfl : fl.length = fc.length := hflg.2
      subst hsel
      rw [if_pos rfl]
      simp only [List.cons_append, List.nil_append]
      rw [readSelCT_sel ct none [] hpct]
      simp only [exBind_ok]
      rw [latticeCart_one]
      · simp only [exBind_ok]
        rw [hMinv]
        simp only [exBind_ok]
        rw [hnat, readCoords_write_sel ct Minv conv hconv fl fc 0
          (by omega)]
        simp only [exBind_ok]
        rw [List.drop_zero, ← hfl, List.take_length]
        have hfl_ne : fl.isEmpty = false := by
          cases fl with
          | nil => rw [List.length_nil] at hfl; omega
          | cons a t => rfl
        rw [fillFlags, hfl_ne]
        rfl
      · rfl
  · rw [if_neg hsy]
    simp only [List.cons_append, List.nil_append]
    rw [readSymbolsCounts_sym syms cnts hsy (hlen hsy) hsym]
    simp only [exBind_ok]
    cases flg with
    | none =>
      have hsel : sel = false := hflg
      subst hsel
      rw [if_neg (by simp)]
      simp only [List.nil_append, List.cons_append]
      rw [readSelCT_nosel ct none [] hss hpct]
      simp only [exBind_ok]
      dsimp only
      rw [latticeCart_one]
      · simp only [exBind_ok]
        rw [hMinv]
        simp only [exBind_ok]
        rw [hnat, readCoords_write_nosel ct Minv conv hconv fc 0]
        simp only [exBind_ok]
        rfl
      · rfl
    | some fl =>
      have hsel : sel = true := hflg.1
      have hfl : fl.length = fc.length := hflg.2
      subst hsel
      rw [if_pos rfl]
      simp only [List.cons_append, List.nil_append]
      rw [readSelCT_sel ct none [] hpct]
      simp only [exBind_ok]
      rw [latticeCart_one]
      · simp only [exBind_ok]
        rw [hMinv]
        simp only [exBind_ok]
        rw [hnat, readCoords_write_sel ct Minv conv hconv fl fc 0
          (by omega)]
        simp only [exBind_ok]
        rw [List.drop_zero, ← hfl, List.take_length]
        have hfl_ne : fl.isEmpty = false := by
          cases fl with
          | nil => rw [List.length_nil] at hfl; omega
          | cons a t => rfl
        rw [fillFlags, hfl_ne]
        rfl
      · rfl

/-- A unit-cell structure with `scale = 2`: `write_poscar` writes the
*scaled* lattice (`lattice_cart`) together with the original scale line,
so parsing the output scales the lattice a second time. -/
def pC1x : Poscar :=
  { comment := "w", scale := 2, lattice := ((1, 0, 0), (0, 1, 0), (0, 0, 1)),
    symbols := ["Si"], counts := [1], has_selective := false,
    coord_type := "Direct", frac_coords := [(0, 0, 0)], flags := none }

/-- The line list `write_poscar` emits for `pC1x`. -/
def lsC1x : List Line :=
  [ { raw := "w", lineFloat := none, toks := [] },
    { raw := "", lineFloat := some 2, toks := [] },
    { raw := "", lineFloat := none, toks := [fTok 2, fTok 0, fTok 0] },
    { raw := "", lineFloat := none, toks := [fTok 0, fTok 2, fTok 0] },
    { raw := "", lineFloat := none, toks := [fTok 0, fTok 0, fTok 2] },
    { raw := "", lineFloat := none, toks := [symTok "Si"] },
    { raw := "", lineFloat := none, toks := [iTok 1] },
    { raw := "Direct", lineFloat := none, toks := [] },
    { raw := "", lineFloat := none, toks := [fTok 0, fTok 0, fTok 0] } ]

/-- What `read_poscar` returns on `lsC1x`: the doubled lattice. -/
def pC1xOut : Poscar :=
  { comment := "w", scale := 2, lattice := ((2, 0, 0), (0, 2, 0), (0, 0, 2)),
    symbols := ["Si"], counts := [1], has_selective := false,
    coord_type := "Direct", frac_coords := [(0, 0, 0)], flags := none }

theorem writeC1xEval : writePoscar (fun q => q) pC1x none = .ok lsC1x := by
  norm_num +decide [writePoscar, latticeCart, msmul, vsmul, rowLine,
    coordLines, flagToks, fTok, iTok, symTok, lowerStr, startsWithStr,
    strD, ctDirect, pC1x, lsC1x]

theorem readC1xEval : readPoscar (fun q => q) lsC1x = .ok pC1xOut := by
  norm_num +decide [readPoscar, readLattRow, readSymbolsCounts, readSelCT,
    parseCT, readCoords, fillFlags, tokFloatQ, latticeCart, matInv3, matVec,
    msmul, vsmul, singEps, startsT, stripStr, lowerStr, upperStr,
    normalizeElement, startsWithStr, strS, strD, strC, strK, strT, ctDirect,
    ctCartesian, fTok, iTok, symTok, tokDefault, lsC1x, pC1xOut, List.mapM,
    List.mapM.loop, List.replicate]

/-- C1 (counterexample): the round-trip law fails for a valid structure
with `scale = 2`.  `write_poscar` (io.py 162-165) writes the rows of
`lattice_cart()` — the lattice already multiplied by the scale — while
also writing the original `scale` value on line 2 (io.py 160), so
`read_poscar` applies the scale a second time: parsing the serialized
form of `pC1x` returns `pC1xOut`, whose lattice is doubled, hence not
equal to `pC1x`. -/
theorem C1_counterexample :
    writePoscar (fun q => q) pC1x none = .ok lsC1x ∧
    readPoscar (fun q => q) lsC1x = .ok pC1xOut ∧
    pC1xOut.lattice ≠ pC1x.lattice ∧ pC1xOut ≠ pC1x := by
  refine ⟨writeC1xEval, readC1xEval, ?_, ?_⟩
  · intro h
    have h2 : (2 : ℚ) = 1 := congrArg (fun m => m.1.1) h
    norm_num at h2
  · intro h
    have h2 : (2 : ℚ) = 1 := congrArg (fun p => p.lattice.1.1) h
    norm_num at h2

/-- C1 (amended): for a *unit-scale* valid structure — data-model
invariants holding, at least one atom, a numerically invertible lattice,
a whitespace-clean comment, and normalized species labels — parsing the
serialized form recovers every field exactly:
`read_poscar (write_poscar S) = S`.  (At `scale ≠ 1` the law fails; see
the counterexample.) -/
theorem C1_roundtrip_amended (cbrt : ℚ → ℚ) (S : Poscar)
    (hval : PoscarValid S)
    (hscale : S.scale = 1)
    (hne : S.frac_coords ≠ [])
    (hdet : ¬ abs (det3 S.lattice) < singEps)
    (hcm : stripStr S.comment = S.comment)
    (hsym : ∀ s ∈ S.symbols, normalizeElement s = s) :
    ∃ ls, writePoscar cbrt S none = .ok ls ∧ readPoscar cbrt ls = .ok S := by
  obtain ⟨cm, sc, lat, syms, cnts, sel, ct, fc, flg⟩ := S
  obtain ⟨hlen, hsum, hct, hflg⟩ := hval
  have hsc : sc = 1 := hscale
  subst hsc
  obtain ⟨Minv, hMinv⟩ := matInv3_ok_of_det (M := lat) hdet
  rcases hct with hD | hC
  · have hcteq : ct = ctDirect := hD
    subst hcteq
    have hconv : ∀ w : Vec3,
        (if ctDirect = ctDirect then w else matVec Minv w) = w := by
      intro w
      rw [if_pos rfl]
    have hread := readPoscar_writeback cbrt cm lat syms cnts sel ctDirect fc
      flg Minv (fun w => w) hcm hsym hlen hsum hne hMinv hconv rfl rfl hflg
    refine ⟨_, ?_, hread⟩
    rw [writePoscar]
    dsimp only
    rw [latticeCart_one]
    · simp only [exBind_ok]
      have hcoD : (if startsWithStr (lowerStr ctDirect) strD = true then fc
          else List.map (fun v => matVec lat v) fc) =
          List.map (fun w : Vec3 => w) fc := by
        rw [if_pos (by decide)]
        simp
      rw [hcoD]
    · rfl
  · have hcteq : ct = ctCartesian := hC
    subst hcteq
    have hconv : ∀ w : Vec3,
        (if ctCartesian = ctDirect then matVec lat w
         else matVec Minv (matVec lat w)) = w := by
      intro w
      rw [if_neg (by decide)]
      exact matInv3_leftInverse hMinv w
    have hread := readPoscar_writeback cbrt cm lat syms cnts sel ctCartesian fc
      flg Minv (fun w => matVec lat w) hcm hsym hlen hsum hne hMinv hconv
      rfl rfl hflg
    refine ⟨_, ?_, hread⟩
    rw [writePoscar]
    dsimp only
    rw [latticeCart_one]
    · simp only [exBind_ok]
      have hcoC : (if startsWithStr (lowerStr ctCartesian) strD = true then fc
          else List.map (fun v => matVec lat v) fc) =
          List.map (fun w : Vec3 => matVec lat w) fc := by
        rw [if_neg (by decide)]
      rw [hcoC]
    · rfl

/-- Witness for C1 (amended): the unit-scale one-atom cubic cell `pW`
round-trips exactly. -/
theorem C1_roundtrip_amended_witness :
    ∃ ls, writePoscar (fun q => q) pW none = .ok ls ∧
      readPoscar (fun q => q) ls = .ok pW :=
  C1_roundtrip_amended (fun q => q) pW
    ⟨fun _ => rfl, by simp [pW], Or.inl rfl, rfl⟩
    rfl
    (by simp [pW])
    (by norm_num [pW, det3, singEps])
    rfl
    (by
      intro s hs
      have hs' : s = "Si" := by simpa [pW] using hs
      subst hs'
      rfl)

end VaspInit

























